import Mathlib

/-!
# STRIDE sequence export: `OutSeq` (Sources/Stride/outseq.c)

A shallow embedding of `OutSeq` and of the part of the C library it calls.
Text is a list of characters.  The process runs over an explicit `World`
(standard output, the files, which paths can be opened for appending, and a
log of the calls that leave no text behind) and either yields a value or
halts, keeping the world reached so far.
-/

namespace Stride

/-! ## Data model (the fields of stride.h that `OutSeq` reads) -/

/-- Modelled from the spec: the residue record of stride.h, of which `OutSeq`
reads only `ResType`, the three-letter residue name. -/
structure RESIDUE where
  ResType : List Char
  deriving DecidableEq, Repr

/-- Modelled from the spec: the chain record of stride.h, with the fields
`OutSeq` reads.  `File` is the text of a C string; `NRes` is a C `int`, kept
apart from the residue array `Rsd` whose length it is meant to be;
`Resolution` is a C `float`, a finite value of which is a rational; `Valid`
is the validity flag. -/
structure CHAIN where
  File : List Char
  Id : Char
  NRes : Int
  Resolution : Rat
  Valid : Bool
  Rsd : List RESIDUE
  deriving DecidableEq

/-- Modelled from the spec: the command record of stride.h, of which `OutSeq`
reads only the destination path `SeqFile`. -/
structure COMMAND where
  SeqFile : List Char
  deriving DecidableEq, Repr

/-- What `OutSeq` uses and outseq.c does not define: the residue code table
`ThreeToOne`, the rendering of a `float` by the directive `%7.3f`, and the
value of the constant `SUCCESS` of stride.h. -/
structure Env where
  ThreeToOne : List Char → Char
  fmt_7_3f : Rat → List Char
  SUCCESS : Int

/-- Modelled from the spec: `SpaceToDash` is defined outside outseq.c; the
chain identifier has a literal space character replaced by a dash. -/
def SpaceToDash (Id : Char) : Char :=
  if Id = ' ' then '-' else Id

/-! ## The C library: streams, formatted output, process exit -/

/-- A stream handle (`FILE *`): standard output, or a file opened at a path. -/
inductive FILE where
  | stdout
  | file (path : List Char)
  deriving DecidableEq, Repr

/-- Calls that leave no text behind, in the order made. -/
inductive Event where
  | fopen (path : List Char) (mode : List Char) (ok : Bool)
  | read (Res : Nat)
  | fclose (stream : FILE)
  deriving DecidableEq, Repr

/-- The world the process runs in.  `files p` is the content of the file at
`p` (`none`: no such file); `openable p` tells whether `fopen(p, "a")`
succeeds. -/
structure World where
  stdout : List Char
  files : List Char → Option (List Char)
  openable : List Char → Bool
  log : List Event

/-- How a process stops without returning to its caller. -/
inductive Halt where
  | exited (status : Int)
  | died (msg : List Char)
  | undefinedBehaviour
  deriving DecidableEq, Repr

/-- A computation over the world: a value or a halt, and the world reached. -/
def Proc (α : Type) : Type := World → Except Halt α × World

/-- Return `a`, world unchanged. -/
def Proc.pure {α : Type} (a : α) : Proc α := fun w => (.ok a, w)

/-- Run `m`, then `f` on its value; a halt in `m` skips `f`. -/
def Proc.bind {α β : Type} (m : Proc α) (f : α → Proc β) : Proc β := fun w =>
  match m w with
  | (.ok a, w1) => f a w1
  | (.error h, w1) => (.error h, w1)

instance : Monad Proc where
  pure := Proc.pure
  bind := Proc.bind

/-- An argument of a formatted-output call. -/
inductive Arg where
  | s (v : List Char)
  | c (v : Char)
  | d (v : Int)
  | f (v : Rat)
  deriving DecidableEq

/-- The text of `%d` for a C `int`. -/
def decimal (i : Int) : List Char := (toString i).toList

/-- Formatted output with the directives `OutSeq` uses: `%s`, `%c`, `%d`
and `%7.3f`; every other character is copied. -/
def format (E : Env) : List Char → List Arg → List Char
  | '%' :: 's' :: rest, Arg.s v :: args => v ++ format E rest args
  | '%' :: 'c' :: rest, Arg.c v :: args => v :: format E rest args
  | '%' :: 'd' :: rest, Arg.d v :: args => decimal v ++ format E rest args
  | '%' :: '7' :: '.' :: '3' :: 'f' :: rest, Arg.f v :: args =>
      E.fmt_7_3f v ++ format E rest args
  | ch :: rest, args => ch :: format E rest args
  | [], _ => []

/-- Append `text` to a stream; a file opened with mode `"a"` is written at
its end.  A stream whose path names no file has no content to extend. -/
def World.write (w : World) (stream : FILE) (text : List Char) : World :=
  match stream with
  | .stdout => { w with stdout := w.stdout ++ text }
  | .file p =>
      { w with files := fun q => if q = p then (w.files q).map (· ++ text) else w.files q }

/-- C `fopen(path, "a")`: `none` is `NULL`.  A successful open creates the
file when absent and keeps its content. -/
def fopen (path mode : List Char) : Proc (Option FILE) := fun w =>
  if w.openable path then
    (.ok (some (.file path)),
      { w with
        files := fun q => if q = path then some ((w.files path).getD []) else w.files q
        log := w.log ++ [.fopen path mode true] })
  else
    (.ok none, { w with log := w.log ++ [.fopen path mode false] })

/-- C `fprintf(stream, fmt, args...)`. -/
def fprintf (E : Env) (stream : FILE) (fmt : String) (args : List Arg) : Proc Unit :=
  fun w => (.ok (), w.write stream (format E fmt.toList args))

/-- C `fclose(stream)`. -/
def fclose (stream : FILE) : Proc Unit := fun w =>
  (.ok (), { w with log := w.log ++ [.fclose stream] })

/-- C `exit(status)`: the process ends here. -/
def exit {α : Type} (status : Int) : Proc α := fun w => (.error (.exited status), w)

/-- Modelled from the spec: `die` is defined outside outseq.c; the process
terminates with the formatted message as a fatal error. -/
def die {α : Type} (E : Env) (fmt : String) (args : List Arg) : Proc α := fun w =>
  (.error (.died (format E fmt.toList args)), w)

/-- Reading past the end of an array is undefined behaviour. -/
def index {α : Type} (xs : List α) (i : Nat) : Proc α := fun w =>
  match xs[i]? with
  | some x => (.ok x, w)
  | none => (.error .undefinedBehaviour, w)

/-- The access `Chain[Cn]->Rsd[Res]`, logged. -/
def readRsd (c : CHAIN) (Res : Nat) : Proc RESIDUE := fun w =>
  match c.Rsd[Res]? with
  | some r => (.ok r, { w with log := w.log ++ [.read Res] })
  | none => (.error .undefinedBehaviour, w)

/-! ## `OutSeq` -/

/-- Lines 24-27: the loop `for( Res=0; Res<Chain[Cn]->NRes; Res++ )`, entered
with the counter at `Res`. -/
def resLoop (E : Env) (Seq : FILE) (c : CHAIN) (Res : Nat) : Proc Unit :=
  if (Res : Int) < c.NRes then do
    if Res % 60 == 0 && Res != 0 then fprintf E Seq "\n" []
    let r ← readRsd c Res
    fprintf E Seq "%c" [.c (E.ThreeToOne r.ResType)]
    resLoop E Seq c (Res + 1)
  else
    pure ()
termination_by (c.NRes - Res).toNat
decreasing_by omega

/-- Lines 24-28: the residue body of the chain `c`, the loop and the final
line break. -/
def chainBody (E : Env) (Seq : FILE) (c : CHAIN) : Proc Unit := do
  resLoop E Seq c 0
  fprintf E Seq "\n" []

/-- Lines 17-28: the body of the chain loop for the chain `c`. -/
def chainStep (E : Env) (Seq : FILE) (c : CHAIN) : Proc Unit :=
  if !c.Valid then
    pure ()
  else do
    fprintf E Seq ">%s %c  %d %7.3f\n"
      [.s c.File, .c (SpaceToDash c.Id), .d c.NRes, .f c.Resolution]
    chainBody E Seq c

/-- Lines 15-29: the loop `for( Cn=0; Cn<NChain; Cn++ )`, entered with the
counter at `Cn`. -/
def chainLoop (E : Env) (Seq : FILE) (Chain : List CHAIN) (NChain : Int) (Cn : Nat) :
    Proc Unit :=
  if (Cn : Int) < NChain then do
    let c ← index Chain Cn
    chainStep E Seq c
    chainLoop E Seq Chain NChain (Cn + 1)
  else
    pure ()
termination_by (NChain - Cn).toNat
decreasing_by omega

/-- Lines 8-12: the destination stream.  The cast of `strlen` to `int` is the
identity on the length of a path. -/
def openSeq (E : Env) (Cmd : COMMAND) : Proc FILE :=
  if Cmd.SeqFile.length == 0 then
    pure .stdout
  else do
    match ← fopen Cmd.SeqFile "a".toList with
    | none => die E "Error writing sequence file %s\n" [.s Cmd.SeqFile]
    | some Seq => pure Seq

/-- The function `OutSeq` of outseq.c. -/
def OutSeq (E : Env) (Chain : List CHAIN) (NChain : Int) (Cmd : COMMAND) : Proc Int := do
  let Seq ← openSeq E Cmd
  chainLoop E Seq Chain NChain 0
  fclose Seq
  exit 0
  return E.SUCCESS

/-! ## Derived notions used to state the properties -/

/-- Append `es` to the log. -/
def World.logged (w : World) (es : List Event) : World :=
  { w with log := w.log ++ es }

/-- The one-letter codes of the residues of a chain, in residue order. -/
def codes (E : Env) (c : CHAIN) : List Char :=
  c.Rsd.map fun r => E.ThreeToOne r.ResType

/-- The text of the residue loop over the codes `cs` when the first of them
has index `Res`: a line break before an index that is a positive multiple of
60, then the code. -/
def loopText : List Char → Nat → List Char
  | [], _ => []
  | x :: cs, Res =>
      (if Res % 60 = 0 ∧ Res ≠ 0 then ['\n'] else []) ++ x :: loopText cs (Res + 1)

/-- The reads `Rsd[Res]`, `Rsd[Res+1]`, ... of `n` consecutive residues. -/
def readsFrom (Res n : Nat) : List Event :=
  (List.range n).map fun k => Event.read (Res + k)

/-- The chain loop as a recursion over the list of chains still to process. -/
def runChains (E : Env) (Seq : FILE) : List CHAIN → Proc Unit
  | [] => pure ()
  | c :: cs => do
      chainStep E Seq c
      runChains E Seq cs

/-- The text of the header call of lines 20-22 for the chain `c`. -/
def headerText (E : Env) (c : CHAIN) : List Char :=
  format E ">%s %c  %d %7.3f\n".toList
    [.s c.File, .c (SpaceToDash c.Id), .d c.NRes, .f c.Resolution]

/-- The text of lines 24-28 for a chain whose first `n` residues are read:
the residue loop over their codes, then the final line break. -/
def bodyText (E : Env) (c : CHAIN) (n : Nat) : List Char :=
  loopText ((codes E c).take n) 0 ++ ['\n']

/-- The consecutive groups of `n` items of `cs`: group `k` holds the items
`k * n, ..., k * n + n - 1`, the last group those that remain. -/
def groups (n : Nat) (cs : List Char) : List (List Char) :=
  (List.range ((cs.length + (n - 1)) / n)).map fun k => (cs.drop (k * n)).take n

/-- A computation given its stream is uniform when, whatever the stream and
the world, it ends the same way, appends the same text to the stream and the
same events, all residue reads, to the log, and changes nothing else. -/
def Uniform {α : Type} (m : FILE → Proc α) : Prop :=
  ∃ (r : Except Halt α) (t : List Char) (es : List Event),
    (∀ e ∈ es, ∃ i, e = Event.read i)
      ∧ ∀ (Seq : FILE) (w : World), m Seq w = (r, (w.write Seq t).logged es)

/-- A world with nothing written, no file, and no path that can be opened. -/
def World.blank : World :=
  { stdout := [], files := fun _ => none, openable := fun _ => false, log := [] }

/-- The chain loop of `OutSeq` run on standard output in the blank world. -/
def exportRun (E : Env) (Chain : List CHAIN) : Except Halt Unit × World :=
  chainLoop E .stdout Chain Chain.length 0 World.blank

/-- The text `OutSeq` exports for a chain list: what its chain loop writes. -/
def exportedText (E : Env) (Chain : List CHAIN) : List Char :=
  (exportRun E Chain).2.stdout

/-- The residue reads `OutSeq` makes for a chain list. -/
def exportedLog (E : Env) (Chain : List CHAIN) : List Event :=
  (exportRun E Chain).2.log

/-- The world after a successful `fopen(p, "a")`. -/
def World.opened (w : World) (p : List Char) : World :=
  { w with
    files := fun q => if q = p then some ((w.files p).getD []) else w.files q
    log := w.log ++ [.fopen p ['a'] true] }

/-- The end of `OutSeq` (lines 30-33) after a chain loop that ended as `r` in
the world `w`. -/
def finish (r : Except Halt Unit) (w : World) (Seq : FILE) : Except Halt Int × World :=
  match r with
  | .ok _ => (.error (.exited 0), w.logged [.fclose Seq])
  | .error h => (.error h, w)

/-- The text of the chain loop body for one chain whose `NRes` does not
exceed its residue list: nothing for an invalid chain, header and body for a
valid one. -/
def chainText (E : Env) (c : CHAIN) : List Char :=
  if c.Valid then headerText E c ++ bodyText E c c.NRes.toNat else []

/-- The residue reads of the chain loop body for one such chain. -/
def chainReads (c : CHAIN) : List Event :=
  if c.Valid then readsFrom 0 c.NRes.toNat else []

/-! ## Sample data -/

/-- A residue table for the examples: ALA, GLY and SER have the codes A, G and
S, any other name has X; every resolution is rendered as that of 2.0. -/
def sampleEnv : Env where
  ThreeToOne := fun t =>
    if t = ['A', 'L', 'A'] then 'A'
    else if t = ['G', 'L', 'Y'] then 'G'
    else if t = ['S', 'E', 'R'] then 'S'
    else 'X'
  fmt_7_3f := fun _ => [' ', ' ', '2', '.', '0', '0', '0']
  SUCCESS := 1

/-- The chain of the worked example: file 1abc, blank identifier, three
residues ALA, GLY, SER, resolution 2.0, valid. -/
def sampleChain : CHAIN where
  File := ['1', 'a', 'b', 'c']
  Id := ' '
  NRes := 3
  Resolution := 2
  Valid := true
  Rsd := [⟨['A', 'L', 'A']⟩, ⟨['G', 'L', 'Y']⟩, ⟨['S', 'E', 'R']⟩]

/-- An invalid chain with one residue. -/
def skippedChain : CHAIN where
  File := ['2', 'x', 'y', 'z']
  Id := 'B'
  NRes := 1
  Resolution := 2
  Valid := false
  Rsd := [⟨['G', 'L', 'Y']⟩]

/-- A valid chain of 60 residues ALA. -/
def fullLineChain : CHAIN where
  File := ['3', 'f', 'u', 'l']
  Id := 'A'
  NRes := 60
  Resolution := 2
  Valid := true
  Rsd := List.replicate 60 ⟨['A', 'L', 'A']⟩

/-- A world in which the path `out` can be opened and holds the text `old`. -/
def sampleWorld : World where
  stdout := []
  files := fun q => if q = ['o', 'u', 't'] then some ['o', 'l', 'd'] else none
  openable := fun q => q = ['o', 'u', 't']
  log := []

/-- A residue table for the examples in which every resolution is rendered
as that of 123.457, which fills the seven columns. -/
def wideEnv : Env where
  ThreeToOne := fun _ => 'A'
  fmt_7_3f := fun _ => ['1', '2', '3', '.', '4', '5', '7']
  SUCCESS := 1

/-- A valid chain of 7 residues ALA with resolution 123.457. -/
def wideChain : CHAIN where
  File := ['1', 'a', 'b', 'c']
  Id := 'A'
  NRes := 7
  Resolution := 123457 / 1000
  Valid := true
  Rsd := List.replicate 7 ⟨['A', 'L', 'A']⟩

/-- A valid chain whose residue count is negative, with two residues stored. -/
def negativeChain : CHAIN where
  File := ['4', 'n', 'e', 'g']
  Id := 'C'
  NRes := -3
  Resolution := 2
  Valid := true
  Rsd := [⟨['A', 'L', 'A']⟩, ⟨['G', 'L', 'Y']⟩]

/-! ## The directive `%7.3f` of the C library -/

/-- The number of thousandths nearest to `|x|`, a tie going to the even one:
the rounding of `printf` to three decimals in the default rounding mode. -/
def thousandths (x : Rat) : Nat :=
  let q := x.num.natAbs * 1000 / x.den
  let r := x.num.natAbs * 1000 % x.den
  if 2 * r < x.den then q
  else if x.den < 2 * r then q + 1
  else if q % 2 = 0 then q else q + 1

/-- C `%.3f` for a finite value: a minus sign for a negative value, the
decimal digits of the whole part, a point, and three digits. -/
def fixed3 (x : Rat) : List Char :=
  (if x.num < 0 then ['-'] else []) ++ Nat.toDigits 10 (thousandths x / 1000)
    ++ ['.', Nat.digitChar (thousandths x / 100 % 10), Nat.digitChar (thousandths x / 10 % 10),
      Nat.digitChar (thousandths x % 10)]

/-- C `%7.3f` for a finite value: the text of `%.3f`, with blanks put before
it while it has fewer than 7 characters. -/
def printf_7_3f (x : Rat) : List Char :=
  List.replicate (7 - (fixed3 x).length) ' ' ++ fixed3 x

/-- The residue table of the examples with the rendering of `%7.3f` of the C
library. -/
def libcEnv : Env where
  ThreeToOne := sampleEnv.ThreeToOne
  fmt_7_3f := printf_7_3f
  SUCCESS := 1

/-- The chain of the worked example with resolution 1.5. -/
def halfChain : CHAIN :=
  { sampleChain with Resolution := 3 / 2 }

end Stride

namespace Stride

/-! ## The process monad and the world -/

@[simp] theorem pure_run {α : Type} (a : α) (w : World) :
    (pure a : Proc α) w = (.ok a, w) := rfl

@[simp] theorem bind_run {α β : Type} (m : Proc α) (f : α → Proc β) (w : World) :
    (m >>= f) w = match m w with
      | (.ok a, w1) => f a w1
      | (.error h, w1) => (.error h, w1) := rfl

@[simp] theorem World.write_nil (w : World) (s : FILE) : w.write s [] = w := by
  cases s <;> simp [World.write]

@[simp] theorem World.logged_nil (w : World) : w.logged [] = w := by
  simp [World.logged]

@[simp] theorem World.write_write (w : World) (s : FILE) (a b : List Char) :
    (w.write s a).write s b = w.write s (a ++ b) := by
  cases s with
  | stdout => simp [World.write]
  | file p =>
    simp only [World.write]
    congr 1
    funext q
    by_cases h : q = p
    · subst h
      cases hq : w.files q <;> simp [hq]
    · simp [h]

@[simp] theorem World.logged_logged (w : World) (a b : List Event) :
    (w.logged a).logged b = w.logged (a ++ b) := by
  simp [World.logged]

@[simp] theorem World.logged_write (w : World) (es : List Event) (s : FILE) (t : List Char) :
    (w.logged es).write s t = (w.write s t).logged es := by
  cases s <;> rfl


@[simp] theorem fprintf_run (E : Env) (s : FILE) (fmt : String) (args : List Arg) (w : World) :
    fprintf E s fmt args w = (.ok (), w.write s (format E fmt.toList args)) := rfl

theorem format_newline (E : Env) : format E "\n".toList [] = ['\n'] := by
  rfl

theorem format_char (E : Env) (x : Char) : format E "%c".toList [.c x] = [x] := by
  rfl

theorem format_header (E : Env) (c : CHAIN) :
    format E ">%s %c  %d %7.3f\n".toList
        [.s c.File, .c (SpaceToDash c.Id), .d c.NRes, .f c.Resolution]
      = '>' :: (c.File ++ ' ' :: SpaceToDash c.Id :: ' ' :: ' ' :: (decimal c.NRes
          ++ ' ' :: (E.fmt_7_3f c.Resolution ++ ['\n']))) := by
  rfl


theorem readRsd_run (c : CHAIN) (Res : Nat) (h : Res < c.Rsd.length) (w : World) :
    readRsd c Res w = (.ok (c.Rsd.get ⟨Res, h⟩), w.logged [.read Res]) := by
  simp [readRsd, World.logged, List.getElem?_eq_getElem h]

theorem readsFrom_succ (Res n : Nat) :
    readsFrom Res (n + 1) = Event.read Res :: readsFrom (Res + 1) n := by
  simp only [readsFrom, List.range_succ_eq_map, List.map_cons, List.map_map, Nat.add_zero]
  congr 1
  apply List.map_congr_left
  intro k _
  simp only [Function.comp_apply]
  congr 1
  omega

theorem resLoop_run (E : Env) (Seq : FILE) (c : CHAIN) (hle : c.NRes ≤ (c.Rsd.length : Int)) :
    ∀ (k Res : Nat), (c.NRes - Res).toNat = k → ∀ w : World,
      resLoop E Seq c Res w
        = (.ok (), (w.write Seq
            (loopText (((codes E c).take c.NRes.toNat).drop Res) Res)).logged
            (readsFrom Res k)) := by
  intro k
  induction k with
  | zero =>
    intro Res hk w
    have hge : ¬ ((Res : Int) < c.NRes) := by omega
    rw [resLoop]
    have hdrop : ((codes E c).take c.NRes.toNat).drop Res = [] := by
      apply List.drop_eq_nil_of_le
      rw [List.length_take]
      omega
    simp [hge, hdrop, loopText, readsFrom]
  | succ k ih =>
    intro Res hk w
    have hlt : (Res : Int) < c.NRes := by omega
    have hlen : Res < c.Rsd.length := by omega
    have hlen2 : Res < ((codes E c).take c.NRes.toNat).length := by
      rw [List.length_take, codes, List.length_map]
      omega
    have hdrop : ((codes E c).take c.NRes.toNat).drop Res
        = E.ThreeToOne (c.Rsd.get ⟨Res, hlen⟩).ResType
          :: ((codes E c).take c.NRes.toNat).drop (Res + 1) := by
      rw [List.drop_eq_getElem_cons hlen2]
      congr 1
      simp [codes, List.getElem_take]
    have hih := ih (Res + 1) (by omega)
    rw [resLoop, hdrop, loopText, readsFrom_succ]
    by_cases hb : Res % 60 = 0 ∧ Res ≠ 0
    · have hb2 : (Res % 60 == 0 && Res != 0) = true := by simp [hb.1, hb.2]
      rw [if_pos hb]
      simp only [hlt, hb2, if_true, bind_run, fprintf_run, format_newline, format_char,
        readRsd_run c Res hlen, hih]
      simp
    · have hb2 : (Res % 60 == 0 && Res != 0) = false := by
        rcases Nat.eq_zero_or_pos (Res % 60) with h0 | h0
        · have : Res = 0 := by
            by_contra hne
            exact hb ⟨h0, hne⟩
          simp [this]
        · have : Res % 60 ≠ 0 := by omega
          simp [this]
      rw [if_neg hb]
      simp only [hlt, hb2, if_true, if_false, Bool.false_eq_true, bind_run, pure_run,
        fprintf_run, format_newline, format_char, readRsd_run c Res hlen, hih]
      simp


/-! ## The chain loop -/

theorem index_run {α : Type} (xs : List α) (i : Nat) (h : i < xs.length) (w : World) :
    index xs i w = (.ok (xs.get ⟨i, h⟩), w) := by
  simp [index, List.getElem?_eq_getElem h]

theorem chainLoop_eq_runChains (E : Env) (Seq : FILE) (Chain : List CHAIN) :
    ∀ (k Cn : Nat), Chain.length - Cn = k → ∀ w : World,
      chainLoop E Seq Chain Chain.length Cn w = runChains E Seq (Chain.drop Cn) w := by
  intro k
  induction k with
  | zero =>
    intro Cn hk w
    have hge : ¬ ((Cn : Int) < (Chain.length : Int)) := by omega
    rw [chainLoop, if_neg hge, List.drop_eq_nil_of_le (by omega), runChains]
  | succ k ih =>
    intro Cn hk w
    have hlt : Cn < Chain.length := by omega
    have hlt2 : (Cn : Int) < (Chain.length : Int) := by omega
    rw [chainLoop, if_pos hlt2, List.drop_eq_getElem_cons hlt, runChains]
    simp only [bind_run, index_run Chain Cn hlt, List.get_eq_getElem]
    rcases hs : chainStep E Seq Chain[Cn] w with ⟨r, w1⟩
    cases r with
    | ok u => simp only [ih (Cn + 1) (by omega) w1]
    | error h => rfl

theorem chainStep_invalid (E : Env) (Seq : FILE) (c : CHAIN) (h : c.Valid = false) (w : World) :
    chainStep E Seq c w = (.ok (), w) := by
  simp [chainStep, h]

theorem runChains_skip (E : Env) (Seq : FILE) (c : CHAIN) (h : c.Valid = false) (ys : List CHAIN) :
    ∀ (xs : List CHAIN) (w : World),
      runChains E Seq (xs ++ c :: ys) w = runChains E Seq (xs ++ ys) w := by
  intro xs
  induction xs with
  | nil =>
    intro w
    simp [runChains, chainStep_invalid E Seq c h]
  | cons x xs ih =>
    intro w
    simp only [List.cons_append, runChains, bind_run]
    rcases hs : chainStep E Seq x w with ⟨r, w1⟩
    cases r with
    | ok u => exact ih w1
    | error e => rfl

theorem runChains_filter (E : Env) (Seq : FILE) :
    ∀ (xs : List CHAIN) (w : World),
      runChains E Seq (xs.filter fun c => c.Valid) w = runChains E Seq xs w := by
  intro xs
  induction xs with
  | nil => intro w; rfl
  | cons x xs ih =>
    intro w
    cases hv : x.Valid with
    | false =>
      simp only [List.filter_cons, hv, runChains, bind_run, chainStep_invalid E Seq x hv]
      exact ih w
    | true =>
      simp only [List.filter_cons, hv, if_true, runChains, bind_run]
      rcases hs : chainStep E Seq x w with ⟨r, w1⟩
      cases r with
      | ok u => simp only [ih w1]
      | error e => rfl

theorem OutSeq_eq_of_runChains (E : Env) (xs ys : List CHAIN) (Cmd : COMMAND)
    (h : ∀ (Seq : FILE) (w : World), runChains E Seq xs w = runChains E Seq ys w) (w : World) :
    OutSeq E xs xs.length Cmd w = OutSeq E ys ys.length Cmd w := by
  simp only [OutSeq, bind_run]
  rcases openSeq E Cmd w with ⟨r, w1⟩
  cases r with
  | error e => rfl
  | ok Seq =>
    have hx := chainLoop_eq_runChains E Seq xs xs.length 0 rfl w1
    have hy := chainLoop_eq_runChains E Seq ys ys.length 0 rfl w1
    simp only [List.drop_zero] at hx hy
    simp only [Nat.cast_zero] at *
    simp only [hx, hy, h Seq w1]


/-- C1: a chain whose `Valid` flag is false is skipped with no output and no
other effect, and does not change what is written for the other chains: the
run on `xs ++ [c] ++ ys` is the run on `xs ++ ys`, and the run on a list is
the run on its valid chains. -/
theorem invalid_chain_skipped (E : Env) (c : CHAIN) (h : c.Valid = false)
    (xs ys : List CHAIN) (Seq : FILE) (Cmd : COMMAND) (w : World) :
    chainStep E Seq c w = (.ok (), w)
    ∧ OutSeq E (xs ++ [c] ++ ys) (xs ++ [c] ++ ys).length Cmd w
        = OutSeq E (xs ++ ys) (xs ++ ys).length Cmd w
    ∧ OutSeq E (xs.filter fun x => x.Valid) (xs.filter fun x => x.Valid).length Cmd w
        = OutSeq E xs xs.length Cmd w := by
  refine ⟨chainStep_invalid E Seq c h w, ?_, ?_⟩
  · apply OutSeq_eq_of_runChains
    intro Seq1 w1
    rw [List.append_assoc]
    exact runChains_skip E Seq1 c h ys xs w1
  · apply OutSeq_eq_of_runChains
    intro Seq1 w1
    exact runChains_filter E Seq1 xs w1

theorem invalid_chain_skipped_witness :
    skippedChain.Valid = false
    ∧ (chainStep sampleEnv .stdout skippedChain World.blank = (.ok (), World.blank)
      ∧ OutSeq sampleEnv ([sampleChain] ++ [skippedChain] ++ [sampleChain])
            ([sampleChain] ++ [skippedChain] ++ [sampleChain]).length ⟨[]⟩ World.blank
          = OutSeq sampleEnv ([sampleChain] ++ [sampleChain])
              ([sampleChain] ++ [sampleChain]).length ⟨[]⟩ World.blank
      ∧ OutSeq sampleEnv ([sampleChain].filter fun x => x.Valid)
            ([sampleChain].filter fun x => x.Valid).length ⟨[]⟩ World.blank
          = OutSeq sampleEnv [sampleChain] [sampleChain].length ⟨[]⟩ World.blank) :=
  ⟨rfl, invalid_chain_skipped sampleEnv skippedChain rfl [sampleChain] [sampleChain] .stdout ⟨[]⟩
    World.blank⟩


/-! ## One valid chain -/

theorem chainBody_run (E : Env) (Seq : FILE) (c : CHAIN) (hle : c.NRes ≤ (c.Rsd.length : Int))
    (w : World) :
    chainBody E Seq c w
      = (.ok (), (w.write Seq (bodyText E c c.NRes.toNat)).logged (readsFrom 0 c.NRes.toNat)) := by
  have h := resLoop_run E Seq c hle c.NRes.toNat 0 (by simp) w
  simp only [List.drop_zero] at h
  simp only [chainBody, bind_run, h, fprintf_run, format_newline, bodyText]
  simp

theorem chainStep_run (E : Env) (Seq : FILE) (c : CHAIN) (hv : c.Valid = true)
    (hle : c.NRes ≤ (c.Rsd.length : Int)) (w : World) :
    chainStep E Seq c w
      = (.ok (), (w.write Seq (headerText E c ++ bodyText E c c.NRes.toNat)).logged
          (readsFrom 0 c.NRes.toNat)) := by
  simp only [chainStep, hv, Bool.not_true, Bool.false_eq_true, if_false, bind_run, fprintf_run,
    chainBody_run E Seq c hle, headerText]
  simp

theorem loopText_filter :
    ∀ (cs : List Char) (i : Nat), (∀ x ∈ cs, x ≠ '\n') →
      (loopText cs i).filter (fun x => x ≠ '\n') = cs := by
  intro cs
  induction cs with
  | nil => intro i _; rfl
  | cons x cs ih =>
    intro i h
    have hx : x ≠ '\n' := h x (List.mem_cons_self _ _)
    have hcs : ∀ y ∈ cs, y ≠ '\n' := fun y hy => h y (List.mem_cons_of_mem _ hy)
    have hih := ih (i + 1) hcs
    rw [loopText, List.filter_append]
    by_cases hb : i % 60 = 0 ∧ i ≠ 0
    · rw [if_pos hb]
      simpa [hx] using hih
    · rw [if_neg hb]
      simpa [hx] using hih

theorem loopText_count :
    ∀ (cs : List Char) (i : Nat), 0 < i → (∀ x ∈ cs, x ≠ '\n') →
      (loopText cs i).count '\n' = (i + cs.length - 1) / 60 - (i - 1) / 60 := by
  intro cs
  induction cs with
  | nil =>
    intro i _ _
    simp [loopText]
  | cons x cs ih =>
    intro i hi h
    have hx : x ≠ '\n' := h x (List.mem_cons_self _ _)
    have hcs : ∀ y ∈ cs, y ≠ '\n' := fun y hy => h y (List.mem_cons_of_mem _ hy)
    have hih := ih (i + 1) (by omega) hcs
    rw [loopText, List.count_append, List.count_cons_of_ne hx.symm, hih, List.length_cons]
    by_cases hb : i % 60 = 0 ∧ i ≠ 0
    · rw [if_pos hb]
      simp only [List.count_cons_self, List.count_nil]
      omega
    · rw [if_neg hb]
      simp only [List.count_nil]
      have : i % 60 ≠ 0 := fun h0 => hb ⟨h0, by omega⟩
      omega


theorem sampleEnv_no_break (t : List Char) : sampleEnv.ThreeToOne t ≠ '\n' := by
  simp only [sampleEnv]
  split_ifs <;> decide

theorem codes_length (E : Env) (c : CHAIN) : (codes E c).length = c.Rsd.length := by
  simp [codes]

theorem codes_no_break (E : Env) (c : CHAIN) (hT : ∀ t, E.ThreeToOne t ≠ '\n') :
    ∀ x ∈ codes E c, x ≠ '\n' := by
  intro x hx
  simp only [codes, List.mem_map] at hx
  obtain ⟨r, _, rfl⟩ := hx
  exact hT r.ResType

/-- C2: for a valid chain with `NRes = N` the length of its residue list and
a code table that never yields a line break, the chain step writes the header
and then a body whose characters other than line breaks are the `N` codes,
and which has `ceil(N/60) = (N + 59) / 60` line breaks when `N > 0` and is a
single line break when `N = 0`. -/
theorem body_character_counts (E : Env) (c : CHAIN) (hv : c.Valid = true)
    (hN : c.NRes = (c.Rsd.length : Int)) (hT : ∀ t, E.ThreeToOne t ≠ '\n')
    (Seq : FILE) (w : World) :
    chainStep E Seq c w
        = (.ok (), (w.write Seq (headerText E c ++ bodyText E c c.Rsd.length)).logged
            (readsFrom 0 c.Rsd.length))
    ∧ (bodyText E c c.Rsd.length).filter (fun x => x ≠ '\n') = codes E c
    ∧ ((bodyText E c c.Rsd.length).filter (fun x => x ≠ '\n')).length = c.Rsd.length
    ∧ (if c.Rsd.length = 0 then bodyText E c c.Rsd.length = ['\n']
        else (bodyText E c c.Rsd.length).count '\n' = (c.Rsd.length + 59) / 60) := by
  have hrun := chainStep_run E Seq c hv (by omega) w
  have hn : c.NRes.toNat = c.Rsd.length := by omega
  rw [hn] at hrun
  have htake : (codes E c).take c.Rsd.length = codes E c := by
    rw [← codes_length E c, List.take_length]
  have hnb := codes_no_break E c hT
  have hfilter : (bodyText E c c.Rsd.length).filter (fun x => x ≠ '\n') = codes E c := by
    rw [bodyText, htake, List.filter_append, loopText_filter _ 0 hnb]
    simp
  refine ⟨hrun, hfilter, ?_, ?_⟩
  · rw [hfilter, codes_length]
  · rw [bodyText, htake, ← codes_length E c]
    cases hcs : codes E c with
    | nil => simp [loopText]
    | cons x cs =>
      have hx : x ≠ '\n' := hnb x (by rw [hcs]; exact List.mem_cons_self _ _)
      have hrest : ∀ y ∈ cs, y ≠ '\n' := fun y hy =>
        hnb y (by rw [hcs]; exact List.mem_cons_of_mem _ hy)
      have hcount := loopText_count cs 1 (by omega) hrest
      simp only [List.length_cons, Nat.add_one_ne_zero, if_false, loopText, List.count_append,
        List.count_cons_of_ne hx.symm, hcount]
      simp only [Nat.zero_mod, ne_eq, not_true_eq_false, and_false, if_false, List.count_nil,
        List.count_cons_self]
      omega

theorem body_character_counts_witness :
    sampleChain.Valid = true
    ∧ sampleChain.NRes = (sampleChain.Rsd.length : Int)
    ∧ (∀ t, sampleEnv.ThreeToOne t ≠ '\n')
    ∧ (chainStep sampleEnv .stdout sampleChain World.blank
          = (.ok (), (World.blank.write .stdout
              (headerText sampleEnv sampleChain
                ++ bodyText sampleEnv sampleChain sampleChain.Rsd.length)).logged
              (readsFrom 0 sampleChain.Rsd.length))
      ∧ (bodyText sampleEnv sampleChain sampleChain.Rsd.length).filter (fun x => x ≠ '\n')
          = codes sampleEnv sampleChain
      ∧ ((bodyText sampleEnv sampleChain sampleChain.Rsd.length).filter
          (fun x => x ≠ '\n')).length = sampleChain.Rsd.length
      ∧ (if sampleChain.Rsd.length = 0
          then bodyText sampleEnv sampleChain sampleChain.Rsd.length = ['\n']
          else (bodyText sampleEnv sampleChain sampleChain.Rsd.length).count '\n'
            = (sampleChain.Rsd.length + 59) / 60)) :=
  ⟨rfl, rfl, sampleEnv_no_break,
    body_character_counts sampleEnv sampleChain rfl rfl sampleEnv_no_break .stdout World.blank⟩


/-! ## Wrapping at 60 columns -/

theorem groups_of_le (cs : List Char) (h0 : 0 < cs.length) (h : cs.length ≤ 60) :
    groups 60 cs = [cs] := by
  have hn : (cs.length + (60 - 1)) / 60 = 1 := by omega
  simp [groups, hn, List.range_succ, List.take_of_length_le h]

theorem groups_of_gt (cs : List Char) (h : 60 < cs.length) :
    groups 60 cs = cs.take 60 :: groups 60 (cs.drop 60) := by
  have hn : (cs.length + (60 - 1)) / 60 = ((cs.drop 60).length + (60 - 1)) / 60 + 1 := by
    rw [List.length_drop]
    omega
  simp only [groups, hn, List.range_succ_eq_map, List.map_cons, List.map_map, Nat.zero_mul,
    List.drop_zero]
  congr 1
  apply List.map_congr_left
  intro k _
  simp only [Function.comp_apply, List.drop_drop]
  congr 2
  omega

theorem loopText_append :
    ∀ (a b : List Char) (i : Nat),
      loopText (a ++ b) i = loopText a i ++ loopText b (i + a.length) := by
  intro a
  induction a with
  | nil => intro b i; simp [loopText]
  | cons x a ih =>
    intro b i
    have hi : i + (x :: a).length = i + 1 + a.length := by
      rw [List.length_cons]
      omega
    rw [List.cons_append, loopText, loopText, ih b (i + 1), hi, List.append_assoc,
      List.cons_append]

theorem loopText_short :
    ∀ (cs : List Char) (i : Nat),
      (∀ j, j < cs.length → ¬ ((i + j) % 60 = 0 ∧ i + j ≠ 0)) → loopText cs i = cs := by
  intro cs
  induction cs with
  | nil => intro i _; rfl
  | cons x cs ih =>
    intro i h
    have h0 : ¬ (i % 60 = 0 ∧ i ≠ 0) := by
      have := h 0 (by simp)
      simpa using this
    have hrest : ∀ j, j < cs.length → ¬ ((i + 1 + j) % 60 = 0 ∧ i + 1 + j ≠ 0) := by
      intro j hj
      have := h (j + 1) (by simp [hj])
      rwa [show i + (j + 1) = i + 1 + j by omega] at this
    rw [loopText, if_neg h0, ih (i + 1) hrest]
    rfl

theorem loopText_shift :
    ∀ (cs : List Char) (i : Nat), 0 < i → loopText cs (i + 60) = loopText cs i := by
  intro cs
  induction cs with
  | nil => intro i _; rfl
  | cons x cs ih =>
    intro i hi
    have hih := ih (i + 1) (by omega)
    rw [show i + 1 + 60 = i + 60 + 1 by omega] at hih
    have hc : ((i + 60) % 60 = 0 ∧ i + 60 ≠ 0) ↔ (i % 60 = 0 ∧ i ≠ 0) := by omega
    simp only [loopText, hih, hc]

theorem loopText_sixty (cs : List Char) (h : cs ≠ []) :
    loopText cs 60 = '\n' :: loopText cs 0 := by
  cases cs with
  | nil => exact absurd rfl h
  | cons x cs =>
    have := loopText_shift cs 1 (by omega)
    simp only [loopText, this]
    simp

theorem loopText_eq_intercalate :
    ∀ (n : Nat) (cs : List Char), cs.length = n →
      loopText cs 0 = List.intercalate ['\n'] (groups 60 cs) := by
  intro n
  induction n using Nat.strong_induction_on with
  | _ n ih =>
    intro cs hlen
    rcases Nat.lt_or_ge 60 cs.length with hgt | hle
    · have hdl : (cs.drop 60).length < n := by
        rw [List.length_drop]
        omega
      have hne : cs.drop 60 ≠ [] := by
        intro h0
        have := congrArg List.length h0
        rw [List.length_drop] at this
        simp at this
        omega
      have hih := ih _ hdl (cs.drop 60) rfl
      have hg : groups 60 (cs.drop 60) ≠ [] := by
        rcases Nat.lt_or_ge 60 (cs.drop 60).length with h1 | h1
        · rw [groups_of_gt _ h1]
          exact List.cons_ne_nil _ _
        · rw [groups_of_le _ (List.length_pos.mpr hne) h1]
          exact List.cons_ne_nil _ _
      have htl : (cs.take 60).length = 60 := by
        rw [List.length_take]
        omega
      have hshort : loopText (cs.take 60) 0 = cs.take 60 := by
        apply loopText_short
        intro j hj
        omega
      conv_lhs => rw [← List.take_append_drop 60 cs]
      rw [loopText_append, hshort, htl, Nat.zero_add, loopText_sixty _ hne, hih,
        groups_of_gt cs hgt]
      obtain ⟨g, gs, hgs⟩ := List.exists_cons_of_ne_nil hg
      rw [hgs]
      simp [List.intercalate, List.intersperse]
    · rcases Nat.eq_zero_or_pos cs.length with h0 | h0
      · have : cs = [] := List.length_eq_zero.mp h0
        subst this
        simp [loopText, groups, List.intercalate]
      · rw [groups_of_le cs h0 hle, loopText_short]
        · simp [List.intercalate]
        · intro j hj
          omega


theorem groups_flatten :
    ∀ (n : Nat) (cs : List Char), cs.length = n → (groups 60 cs).flatten = cs := by
  intro n
  induction n using Nat.strong_induction_on with
  | _ n ih =>
    intro cs hlen
    rcases Nat.lt_or_ge 60 cs.length with hgt | hle
    · have hdl : (cs.drop 60).length < n := by
        rw [List.length_drop]
        omega
      rw [groups_of_gt cs hgt, List.flatten_cons, ih _ hdl (cs.drop 60) rfl,
        List.take_append_drop]
    · rcases Nat.eq_zero_or_pos cs.length with h0 | h0
      · have : cs = [] := List.length_eq_zero.mp h0
        subst this
        simp [groups]
      · rw [groups_of_le cs h0 hle]
        simp

theorem groups_length (cs : List Char) : (groups 60 cs).length = (cs.length + 59) / 60 := by
  simp [groups]

theorem groups_getElem? (cs : List Char) (k : Nat) (hk : k < (cs.length + 59) / 60) :
    (groups 60 cs)[k]? = some ((cs.drop (k * 60)).take 60) := by
  simp [groups, List.getElem?_map, List.getElem?_range hk]

theorem loopText_eq_flatMap :
    ∀ (cs : List Char) (i : Nat),
      loopText cs i
        = (cs.enumFrom i).flatMap fun p =>
            (if p.1 % 60 = 0 ∧ p.1 ≠ 0 then ['\n'] else []) ++ [p.2] := by
  intro cs
  induction cs with
  | nil => intro i; rfl
  | cons x cs ih =>
    intro i
    rw [loopText, ih (i + 1), List.enumFrom_cons, List.flatMap_cons]
    simp

/-- C3: for a valid chain with `N > 0` residues (`NRes = N`), the chain step
writes the header and then the one-letter codes in residue order, split into
consecutive groups of 60 (all of 60 codes but the last, which has between 1
and 60), the groups joined by single line breaks and followed by one final
line break.  The body starts with the code of residue 0, and a line break
stands before exactly the codes of index 60, 120, 180, ... -/
theorem body_is_wrapped_codes (E : Env) (c : CHAIN) (hv : c.Valid = true)
    (hN : c.NRes = (c.Rsd.length : Int)) (hpos : 0 < c.Rsd.length)
    (Seq : FILE) (w : World) :
    chainStep E Seq c w
        = (.ok (), (w.write Seq
            (headerText E c
              ++ (List.intercalate ['\n'] (groups 60 (codes E c)) ++ ['\n']))).logged
            (readsFrom 0 c.Rsd.length))
    ∧ (groups 60 (codes E c)).flatten = c.Rsd.map (fun r => E.ThreeToOne r.ResType)
    ∧ (groups 60 (codes E c)).length = (c.Rsd.length + 59) / 60
    ∧ (∀ k g, (groups 60 (codes E c))[k]? = some g →
        1 ≤ g.length ∧ g.length ≤ 60
          ∧ (k + 1 < (groups 60 (codes E c)).length → g.length = 60))
    ∧ (List.intercalate ['\n'] (groups 60 (codes E c)) ++ ['\n']).head?
        = (c.Rsd.head?).map (fun r => E.ThreeToOne r.ResType)
    ∧ List.intercalate ['\n'] (groups 60 (codes E c)) ++ ['\n']
        = ((codes E c).enum.flatMap fun p =>
            (if p.1 % 60 = 0 ∧ p.1 ≠ 0 then ['\n'] else []) ++ [p.2]) ++ ['\n'] := by
  have hrun := chainStep_run E Seq c hv (by omega) w
  have hn : c.NRes.toNat = c.Rsd.length := by omega
  have hcl := codes_length E c
  have htake : (codes E c).take c.Rsd.length = codes E c := by
    rw [← hcl, List.take_length]
  have hwrap := loopText_eq_intercalate _ (codes E c) rfl
  rw [hn, bodyText, htake, hwrap] at hrun
  refine ⟨hrun, groups_flatten _ (codes E c) rfl, ?_, ?_, ?_, ?_⟩
  · rw [groups_length, hcl]
  · intro k g hg
    have hk : k < (groups 60 (codes E c)).length := by
      by_contra hge
      rw [List.getElem?_eq_none (by omega)] at hg
      exact Option.noConfusion hg
    rw [groups_length] at hk
    rw [groups_getElem? _ k hk] at hg
    have hgl : g.length = min 60 ((codes E c).length - k * 60) := by
      rw [← Option.some.inj hg, List.length_take, List.length_drop]
    rw [groups_length]
    omega
  · rw [← hwrap]
    cases hr : c.Rsd with
    | nil => rw [hr] at hpos; exact absurd hpos (by simp)
    | cons r rs => simp [codes, hr, loopText]
  · rw [← hwrap, loopText_eq_flatMap, List.enum]

theorem body_is_wrapped_codes_witness :
    sampleChain.Valid = true
    ∧ sampleChain.NRes = (sampleChain.Rsd.length : Int)
    ∧ 0 < sampleChain.Rsd.length
    ∧ (chainStep sampleEnv .stdout sampleChain World.blank
          = (.ok (), (World.blank.write .stdout
              (headerText sampleEnv sampleChain
                ++ (List.intercalate ['\n'] (groups 60 (codes sampleEnv sampleChain))
                  ++ ['\n']))).logged
              (readsFrom 0 sampleChain.Rsd.length))
      ∧ (groups 60 (codes sampleEnv sampleChain)).flatten
          = sampleChain.Rsd.map (fun r => sampleEnv.ThreeToOne r.ResType)
      ∧ (groups 60 (codes sampleEnv sampleChain)).length = (sampleChain.Rsd.length + 59) / 60
      ∧ (∀ k g, (groups 60 (codes sampleEnv sampleChain))[k]? = some g →
          1 ≤ g.length ∧ g.length ≤ 60
            ∧ (k + 1 < (groups 60 (codes sampleEnv sampleChain)).length → g.length = 60))
      ∧ (List.intercalate ['\n'] (groups 60 (codes sampleEnv sampleChain)) ++ ['\n']).head?
          = (sampleChain.Rsd.head?).map (fun r => sampleEnv.ThreeToOne r.ResType)
      ∧ List.intercalate ['\n'] (groups 60 (codes sampleEnv sampleChain)) ++ ['\n']
          = ((codes sampleEnv sampleChain).enum.flatMap fun p =>
              (if p.1 % 60 = 0 ∧ p.1 ≠ 0 then ['\n'] else []) ++ [p.2]) ++ ['\n']) :=
  ⟨rfl, rfl, by decide,
    body_is_wrapped_codes sampleEnv sampleChain rfl rfl (by decide) .stdout World.blank⟩


/-! ## The export is uniform in the stream and the world -/

theorem uniform_pure {α : Type} (a : α) : Uniform (fun _ => (pure a : Proc α)) :=
  ⟨.ok a, [], [], by simp, fun Seq w => by simp⟩

theorem uniform_fprintf (E : Env) (fmt : String) (args : List Arg) :
    Uniform (fun Seq => fprintf E Seq fmt args) :=
  ⟨.ok (), format E fmt.toList args, [], by simp, fun Seq w => by simp⟩

theorem uniform_readRsd (c : CHAIN) (Res : Nat) : Uniform (fun _ => readRsd c Res) := by
  cases h : c.Rsd[Res]? with
  | none =>
    exact ⟨.error .undefinedBehaviour, [], [], by simp, fun Seq w => by simp [readRsd, h]⟩
  | some r =>
    exact ⟨.ok r, [], [.read Res], by simp, fun Seq w => by simp [readRsd, h, World.logged]⟩

theorem uniform_bind {α β : Type} (m : FILE → Proc α) (f : α → FILE → Proc β)
    (hm : Uniform m) (hf : ∀ a, Uniform (f a)) :
    Uniform (fun Seq => m Seq >>= fun a => f a Seq) := by
  obtain ⟨r, t, es, hes, h⟩ := hm
  cases r with
  | error e => exact ⟨.error e, t, es, hes, fun Seq w => by simp [h]⟩
  | ok a =>
    obtain ⟨r2, t2, es2, hes2, h2⟩ := hf a
    refine ⟨r2, t ++ t2, es ++ es2, ?_, fun Seq w => by simp [h, h2]⟩
    intro e he
    rcases List.mem_append.mp he with h1 | h1
    · exact hes e h1
    · exact hes2 e h1

theorem uniform_resLoop (E : Env) (c : CHAIN) :
    ∀ (k Res : Nat), (c.NRes - Res).toNat = k → Uniform (fun Seq => resLoop E Seq c Res) := by
  intro k
  induction k with
  | zero =>
    intro Res hk
    have hge : ¬ ((Res : Int) < c.NRes) := by omega
    have : (fun Seq => resLoop E Seq c Res) = fun _ => (pure () : Proc Unit) := by
      funext Seq
      rw [resLoop, if_neg hge]
    rw [this]
    exact uniform_pure ()
  | succ k ih =>
    intro Res hk
    have hlt : (Res : Int) < c.NRes := by omega
    have hrest : ∀ u : Unit, Uniform (fun Seq => (fun _ => readRsd c Res) Seq
        >>= fun r => (fun r Seq => fprintf E Seq "%c" [.c (E.ThreeToOne r.ResType)]
          >>= fun _ => resLoop E Seq c (Res + 1)) r Seq) := by
      intro _
      apply uniform_bind
      · exact uniform_readRsd c Res
      · intro r
        apply uniform_bind (fun Seq => fprintf E Seq "%c" [.c (E.ThreeToOne r.ResType)])
          (fun _ Seq => resLoop E Seq c (Res + 1))
        · exact uniform_fprintf E "%c" _
        · intro _
          exact ih (Res + 1) (by omega)
    cases hb : (Res % 60 == 0 && Res != 0) with
    | true =>
      have hu := uniform_bind _ _ (uniform_fprintf E "\n" []) hrest
      have : (fun Seq => resLoop E Seq c Res)
          = fun Seq => fprintf E Seq "\n" []
              >>= fun (_ : Unit) => readRsd c Res
                >>= fun r => fprintf E Seq "%c" [.c (E.ThreeToOne r.ResType)]
                >>= fun _ => resLoop E Seq c (Res + 1) := by
        funext Seq
        rw [resLoop, if_pos hlt]
        simp only [hb, if_true]
      rw [this]
      exact hu
    | false =>
      have hu := uniform_bind _ _ (uniform_pure ()) hrest
      have : (fun Seq => resLoop E Seq c Res)
          = fun Seq => (pure () : Proc Unit)
              >>= fun (_ : Unit) => readRsd c Res
                >>= fun r => fprintf E Seq "%c" [.c (E.ThreeToOne r.ResType)]
                >>= fun _ => resLoop E Seq c (Res + 1) := by
        funext Seq
        rw [resLoop, if_pos hlt]
        simp only [hb, Bool.false_eq_true, if_false]
      rw [this]
      exact hu


theorem uniform_chainBody (E : Env) (c : CHAIN) : Uniform (fun Seq => chainBody E Seq c) :=
  uniform_bind (fun Seq => resLoop E Seq c 0) (fun _ Seq => fprintf E Seq "\n" [])
    (uniform_resLoop E c _ 0 rfl) (fun _ => uniform_fprintf E "\n" [])

theorem uniform_chainStep (E : Env) (c : CHAIN) : Uniform (fun Seq => chainStep E Seq c) := by
  cases hv : c.Valid with
  | false =>
    have : (fun Seq => chainStep E Seq c) = fun _ => (pure () : Proc Unit) := by
      funext Seq
      simp [chainStep, hv]
    rw [this]
    exact uniform_pure ()
  | true =>
    have : (fun Seq => chainStep E Seq c)
        = fun Seq => fprintf E Seq ">%s %c  %d %7.3f\n"
              [.s c.File, .c (SpaceToDash c.Id), .d c.NRes, .f c.Resolution]
            >>= fun _ => chainBody E Seq c := by
      funext Seq
      simp [chainStep, hv]
    rw [this]
    exact uniform_bind _ (fun _ Seq => chainBody E Seq c) (uniform_fprintf E _ _)
      (fun _ => uniform_chainBody E c)

theorem uniform_runChains (E : Env) :
    ∀ cs : List CHAIN, Uniform (fun Seq => runChains E Seq cs) := by
  intro cs
  induction cs with
  | nil => exact uniform_pure ()
  | cons c cs ih =>
    exact uniform_bind (fun Seq => chainStep E Seq c) (fun _ Seq => runChains E Seq cs)
      (uniform_chainStep E c) (fun _ => ih)

theorem chainLoop_run (E : Env) (Chain : List CHAIN) :
    (∀ e ∈ exportedLog E Chain, ∃ i, e = Event.read i)
    ∧ ∀ (Seq : FILE) (w : World),
      chainLoop E Seq Chain Chain.length 0 w
        = ((exportRun E Chain).1,
            (w.write Seq (exportedText E Chain)).logged (exportedLog E Chain)) := by
  obtain ⟨r, t, es, hes, h⟩ := uniform_runChains E Chain
  have hloop : ∀ (S : FILE) (v : World),
      chainLoop E S Chain Chain.length 0 v = (r, (v.write S t).logged es) := by
    intro S v
    have := chainLoop_eq_runChains E S Chain Chain.length 0 rfl v
    simp only [List.drop_zero, Nat.cast_zero] at this
    rw [this]
    exact h S v
  have hrun : exportRun E Chain = (r, (World.blank.write .stdout t).logged es) := by
    have := hloop .stdout World.blank
    simp only [Nat.cast_zero] at this
    simpa [exportRun] using this
  have ht : exportedText E Chain = t := by
    simp [exportedText, hrun, World.write, World.logged, World.blank]
  have hl : exportedLog E Chain = es := by
    simp [exportedLog, hrun, World.write, World.logged, World.blank]
  have hr : (exportRun E Chain).1 = r := by rw [hrun]
  rw [ht, hl, hr]
  exact ⟨hes, hloop⟩

theorem openSeq_stdout (E : Env) (Cmd : COMMAND) (h : Cmd.SeqFile = []) (w : World) :
    openSeq E Cmd w = (.ok .stdout, w) := by
  simp [openSeq, h]

theorem openSeq_file (E : Env) (Cmd : COMMAND) (w : World) (h : Cmd.SeqFile ≠ [])
    (ho : w.openable Cmd.SeqFile = true) :
    openSeq E Cmd w = (.ok (.file Cmd.SeqFile), w.opened Cmd.SeqFile) := by
  have hl : ¬ (Cmd.SeqFile.length = 0) := fun h0 => h (List.length_eq_zero.mp h0)
  simp [openSeq, hl, fopen, ho, World.opened]

theorem openSeq_fail (E : Env) (Cmd : COMMAND) (w : World) (h : Cmd.SeqFile ≠ [])
    (ho : w.openable Cmd.SeqFile = false) :
    openSeq E Cmd w
      = (.error (.died ("Error writing sequence file ".toList ++ Cmd.SeqFile ++ ['\n'])),
          w.logged [.fopen Cmd.SeqFile ['a'] false]) := by
  have hl : ¬ (Cmd.SeqFile.length = 0) := fun h0 => h (List.length_eq_zero.mp h0)
  have hf : format E "Error writing sequence file %s\n".toList [.s Cmd.SeqFile]
      = "Error writing sequence file ".toList ++ Cmd.SeqFile ++ ['\n'] := by
    rfl
  simp [openSeq, hl, fopen, ho, die, hf, World.logged]
  rfl

theorem OutSeq_run (E : Env) (Chain : List CHAIN) (Cmd : COMMAND) (w : World) :
    OutSeq E Chain Chain.length Cmd w
      = match openSeq E Cmd w with
        | (.ok Seq, w1) =>
            finish (exportRun E Chain).1
              ((w1.write Seq (exportedText E Chain)).logged (exportedLog E Chain)) Seq
        | (.error h, w1) => (.error h, w1) := by
  simp only [OutSeq, bind_run]
  rcases openSeq E Cmd w with ⟨r, w1⟩
  cases r with
  | error e => rfl
  | ok Seq =>
    have := (chainLoop_run E Chain).2 Seq w1
    simp only [Nat.cast_zero] at this
    simp only [this]
    cases (exportRun E Chain).1 with
    | error e => rfl
    | ok u => rfl


/-! ## Chain lists whose residue counts stay within the residue lists -/

theorem chainStep_text (E : Env) (Seq : FILE) (c : CHAIN) (hle : c.NRes ≤ (c.Rsd.length : Int))
    (w : World) :
    chainStep E Seq c w = (.ok (), (w.write Seq (chainText E c)).logged (chainReads c)) := by
  cases hv : c.Valid with
  | false => simp [chainStep_invalid E Seq c hv, chainText, chainReads, hv]
  | true => simp [chainStep_run E Seq c hv hle, chainText, chainReads, hv]

theorem runChains_text (E : Env) (Seq : FILE) :
    ∀ (cs : List CHAIN), (∀ c ∈ cs, c.NRes ≤ (c.Rsd.length : Int)) → ∀ w : World,
      runChains E Seq cs w
        = (.ok (), (w.write Seq (cs.flatMap (chainText E))).logged (cs.flatMap chainReads)) := by
  intro cs
  induction cs with
  | nil => intro _ w; simp [runChains]
  | cons c cs ih =>
    intro h w
    have hc := h c (List.mem_cons_self _ _)
    have hcs : ∀ x ∈ cs, x.NRes ≤ (x.Rsd.length : Int) :=
      fun x hx => h x (List.mem_cons_of_mem _ hx)
    simp only [runChains, bind_run, chainStep_text E Seq c hc, ih hcs, List.flatMap_cons]
    simp

theorem exportRun_text (E : Env) (cs : List CHAIN)
    (h : ∀ c ∈ cs, c.NRes ≤ (c.Rsd.length : Int)) :
    (exportRun E cs).1 = .ok () ∧ exportedText E cs = cs.flatMap (chainText E)
      ∧ exportedLog E cs = cs.flatMap chainReads := by
  have h1 := chainLoop_eq_runChains E .stdout cs cs.length 0 rfl World.blank
  simp only [List.drop_zero, Nat.cast_zero] at h1
  have h2 := runChains_text E .stdout cs h World.blank
  have hrun : exportRun E cs
      = (.ok (), (World.blank.write .stdout (cs.flatMap (chainText E))).logged
          (cs.flatMap chainReads)) := by
    rw [← h2, ← h1]
    simp [exportRun]
  simp [exportedText, exportedLog, hrun, World.write, World.logged, World.blank]


/-! ## The header line -/

/-- C4: for a valid chain the chain step first writes exactly the line
`>` File, a space, the identifier (a dash when the identifier is the space
character), two spaces, the decimal `NRes`, one space, the rendering of the
resolution, and a line break; the residue body follows. -/
theorem header_line_format (E : Env) (c : CHAIN) (hv : c.Valid = true)
    (Seq : FILE) (w : World) :
    chainStep E Seq c w
      = chainBody E Seq c
          (w.write Seq
            (['>'] ++ c.File ++ [' '] ++ [if c.Id = ' ' then '-' else c.Id] ++ [' ', ' ']
              ++ decimal c.NRes ++ [' '] ++ E.fmt_7_3f c.Resolution ++ ['\n'])) := by
  simp only [chainStep, hv, Bool.not_true, Bool.false_eq_true, if_false, bind_run, fprintf_run,
    format_header]
  simp [SpaceToDash]

theorem header_line_format_witness :
    sampleChain.Valid = true
    ∧ chainStep sampleEnv .stdout sampleChain World.blank
        = chainBody sampleEnv .stdout sampleChain
            (World.blank.write .stdout
              (['>'] ++ sampleChain.File ++ [' ']
                ++ [if sampleChain.Id = ' ' then '-' else sampleChain.Id] ++ [' ', ' ']
                ++ decimal sampleChain.NRes ++ [' ']
                ++ sampleEnv.fmt_7_3f sampleChain.Resolution ++ ['\n'])) :=
  ⟨rfl, header_line_format sampleEnv sampleChain rfl .stdout World.blank⟩

/-- C5: for the single chain of the worked example (file 1abc, blank
identifier, `NRes = 3`, residues ALA, GLY, SER) with ALA, GLY, SER mapped to
A, G, S and the resolution 2.0 rendered as `  2.000`, `OutSeq` with the
empty path writes to standard output exactly the lines `>1abc -  3   2.000`
and `AGS`, each ended by one line break, and then exits with status 0. -/
theorem worked_example (E : Env)
    (hA : E.ThreeToOne ['A', 'L', 'A'] = 'A') (hG : E.ThreeToOne ['G', 'L', 'Y'] = 'G')
    (hS : E.ThreeToOne ['S', 'E', 'R'] = 'S')
    (hF : E.fmt_7_3f 2 = [' ', ' ', '2', '.', '0', '0', '0']) (w : World) :
    OutSeq E [sampleChain] 1 ⟨[]⟩ w
      = (.error (.exited 0),
          (w.write .stdout ">1abc -  3   2.000\nAGS\n".toList).logged
            [.read 0, .read 1, .read 2, .fclose .stdout]) := by
  have hinv : ∀ c ∈ [sampleChain], c.NRes ≤ (c.Rsd.length : Int) := by
    intro c hc
    rw [List.mem_singleton.mp hc]
    decide
  obtain ⟨hr, ht, hl⟩ := exportRun_text E [sampleChain] hinv
  have hrun := OutSeq_run E [sampleChain] ⟨[]⟩ w
  rw [openSeq_stdout E ⟨[]⟩ rfl w] at hrun
  simp only [hr, ht, hl, finish] at hrun
  have hd : decimal 3 = ['3'] := by decide
  have htext : [sampleChain].flatMap (chainText E) = ">1abc -  3   2.000\nAGS\n".toList := by
    have hh := format_header E sampleChain
    rw [← headerText] at hh
    have hv : sampleChain.Valid = true := rfl
    rw [show [sampleChain].flatMap (chainText E) = chainText E sampleChain by simp,
      chainText, if_pos hv, hh]
    simp [bodyText, codes, sampleChain, loopText, SpaceToDash, hA, hG, hS, hF, hd]
  have hreads : [sampleChain].flatMap chainReads = [.read 0, .read 1, .read 2] := by
    simp [chainReads, sampleChain, readsFrom, List.range_succ]
  rw [htext, hreads] at hrun
  simpa using hrun

theorem worked_example_witness :
    sampleEnv.ThreeToOne ['A', 'L', 'A'] = 'A' ∧ sampleEnv.ThreeToOne ['G', 'L', 'Y'] = 'G'
    ∧ sampleEnv.ThreeToOne ['S', 'E', 'R'] = 'S'
    ∧ sampleEnv.fmt_7_3f 2 = [' ', ' ', '2', '.', '0', '0', '0']
    ∧ OutSeq sampleEnv [sampleChain] 1 ⟨[]⟩ World.blank
        = (.error (.exited 0),
            (World.blank.write .stdout ">1abc -  3   2.000\nAGS\n".toList).logged
              [.read 0, .read 1, .read 2, .fclose .stdout]) :=
  ⟨by decide, by decide, by decide, rfl,
    worked_example sampleEnv (by decide) (by decide) (by decide) rfl World.blank⟩


/-! ## Residue counts that are multiples of 60 -/

theorem intercalate_break (gs : List (List Char)) (h : gs ≠ []) :
    List.intercalate ['\n'] gs ++ ['\n'] = (gs.map fun g => g ++ ['\n']).flatten := by
  induction gs with
  | nil => exact absurd rfl h
  | cons g gs ih =>
    cases gs with
    | nil => simp [List.intercalate]
    | cons g2 gs =>
      have := ih (List.cons_ne_nil _ _)
      simp only [List.intercalate, List.intersperse, List.flatten_cons, List.map_cons,
        List.append_assoc] at this ⊢
      rw [this]

theorem loopText_no_blank (cs : List Char) (hnb : ∀ x ∈ cs, x ≠ '\n') :
    ∀ i : Nat, List.Chain' (fun a b => ¬ (a = '\n' ∧ b = '\n')) (loopText cs i ++ ['\n']) := by
  induction cs with
  | nil => intro i; simp [loopText]
  | cons x cs ih =>
    intro i
    have hx : x ≠ '\n' := hnb x (List.mem_cons_self _ _)
    have hrest := ih (fun y hy => hnb y (List.mem_cons_of_mem _ hy)) (i + 1)
    have hxr : List.Chain' (fun a b => ¬ (a = '\n' ∧ b = '\n'))
        (x :: (loopText cs (i + 1) ++ ['\n'])) := by
      rw [List.chain'_cons']
      exact ⟨fun y _ hxy => hx hxy.1, hrest⟩
    rw [loopText]
    by_cases hb : i % 60 = 0 ∧ i ≠ 0
    · rw [if_pos hb]
      simp only [List.singleton_append, List.cons_append, List.nil_append]
      rw [List.chain'_cons]
      exact ⟨fun hxy => hx hxy.2, hxr⟩
    · rw [if_neg hb]
      simpa using hxr

/-- C6: for a valid chain whose residue count `N` (`NRes = N`) is a positive
multiple of 60, the body is `N/60` lines, each of exactly 60 codes followed by
one line break; when no code is a line break, no two line breaks are adjacent
(no empty line) and the body ends with a line break. -/
theorem body_of_full_lines (E : Env) (c : CHAIN) (hv : c.Valid = true)
    (hN : c.NRes = (c.Rsd.length : Int)) (hpos : 0 < c.Rsd.length)
    (hmul : c.Rsd.length % 60 = 0) (Seq : FILE) (w : World) :
    chainStep E Seq c w
        = (.ok (), (w.write Seq
            (headerText E c
              ++ ((groups 60 (codes E c)).map fun g => g ++ ['\n']).flatten)).logged
            (readsFrom 0 c.Rsd.length))
    ∧ (groups 60 (codes E c)).length = c.Rsd.length / 60
    ∧ (∀ g ∈ groups 60 (codes E c), g.length = 60)
    ∧ (groups 60 (codes E c)).flatten = c.Rsd.map (fun r => E.ThreeToOne r.ResType)
    ∧ ((∀ t, E.ThreeToOne t ≠ '\n') →
        List.Chain' (fun a b => ¬ (a = '\n' ∧ b = '\n'))
            ((groups 60 (codes E c)).map fun g => g ++ ['\n']).flatten
          ∧ (((groups 60 (codes E c)).map fun g => g ++ ['\n']).flatten).getLast?
              = some '\n') := by
  have hrun := chainStep_run E Seq c hv (by omega) w
  have hn : c.NRes.toNat = c.Rsd.length := by omega
  have hcl := codes_length E c
  have htake : (codes E c).take c.Rsd.length = codes E c := by
    rw [← hcl, List.take_length]
  have hwrap := loopText_eq_intercalate _ (codes E c) rfl
  have hgl : (groups 60 (codes E c)).length = c.Rsd.length / 60 := by
    rw [groups_length, hcl]
    omega
  have hne : groups 60 (codes E c) ≠ [] := by
    intro h0
    have := congrArg List.length h0
    rw [hgl] at this
    simp at this
    omega
  have hbody : loopText (codes E c) 0 ++ ['\n']
      = ((groups 60 (codes E c)).map fun g => g ++ ['\n']).flatten := by
    rw [hwrap, intercalate_break _ hne]
  rw [hn, bodyText, htake, hbody] at hrun
  refine ⟨hrun, hgl, ?_, groups_flatten _ (codes E c) rfl, ?_⟩
  · intro g hg
    obtain ⟨k, hk⟩ := List.mem_iff_getElem?.mp hg
    have hklt : k < (groups 60 (codes E c)).length := by
      by_contra hge
      rw [List.getElem?_eq_none (by omega)] at hk
      exact Option.noConfusion hk
    rw [groups_length] at hklt
    rw [groups_getElem? _ k hklt] at hk
    rw [← Option.some.inj hk, List.length_take, List.length_drop]
    omega
  · intro hT
    rw [← hbody]
    refine ⟨loopText_no_blank _ (codes_no_break E c hT) 0, ?_⟩
    simp


theorem body_of_full_lines_witness :
    fullLineChain.Valid = true
    ∧ fullLineChain.NRes = (fullLineChain.Rsd.length : Int)
    ∧ 0 < fullLineChain.Rsd.length
    ∧ fullLineChain.Rsd.length % 60 = 0
    ∧ (chainStep sampleEnv .stdout fullLineChain World.blank
          = (.ok (), (World.blank.write .stdout
              (headerText sampleEnv fullLineChain
                ++ ((groups 60 (codes sampleEnv fullLineChain)).map
                    fun g => g ++ ['\n']).flatten)).logged
              (readsFrom 0 fullLineChain.Rsd.length))
      ∧ (groups 60 (codes sampleEnv fullLineChain)).length = fullLineChain.Rsd.length / 60
      ∧ (∀ g ∈ groups 60 (codes sampleEnv fullLineChain), g.length = 60)
      ∧ (groups 60 (codes sampleEnv fullLineChain)).flatten
          = fullLineChain.Rsd.map (fun r => sampleEnv.ThreeToOne r.ResType)
      ∧ ((∀ t, sampleEnv.ThreeToOne t ≠ '\n') →
          List.Chain' (fun a b => ¬ (a = '\n' ∧ b = '\n'))
              ((groups 60 (codes sampleEnv fullLineChain)).map fun g => g ++ ['\n']).flatten
            ∧ (((groups 60 (codes sampleEnv fullLineChain)).map
                fun g => g ++ ['\n']).flatten).getLast? = some '\n')) :=
  ⟨rfl, by decide, by decide, by decide,
    body_of_full_lines sampleEnv fullLineChain rfl (by decide) (by decide) (by decide)
      .stdout World.blank⟩


/-! ## The destination -/

theorem finish_files (r : Except Halt Unit) (w : World) (Seq : FILE) :
    (finish r w Seq).2.files = w.files ∧ (finish r w Seq).2.stdout = w.stdout
      ∧ (finish r w Seq).2.openable = w.openable := by
  cases r <;> simp [finish, World.logged]

theorem OutSeq_file (E : Env) (Chain : List CHAIN) (Cmd : COMMAND) (w : World)
    (hp : Cmd.SeqFile ≠ []) (ho : w.openable Cmd.SeqFile = true) :
    OutSeq E Chain Chain.length Cmd w
      = finish (exportRun E Chain).1
          (((w.opened Cmd.SeqFile).write (.file Cmd.SeqFile) (exportedText E Chain)).logged
            (exportedLog E Chain)) (.file Cmd.SeqFile) := by
  rw [OutSeq_run, openSeq_file E Cmd w hp ho]

theorem OutSeq_file_world (E : Env) (Chain : List CHAIN) (Cmd : COMMAND) (w : World)
    (hp : Cmd.SeqFile ≠ []) (ho : w.openable Cmd.SeqFile = true) :
    (OutSeq E Chain Chain.length Cmd w).2.files Cmd.SeqFile
        = some ((w.files Cmd.SeqFile).getD [] ++ exportedText E Chain)
    ∧ (∀ q, q ≠ Cmd.SeqFile → (OutSeq E Chain Chain.length Cmd w).2.files q = w.files q)
    ∧ (OutSeq E Chain Chain.length Cmd w).2.stdout = w.stdout
    ∧ (OutSeq E Chain Chain.length Cmd w).2.openable = w.openable := by
  rw [OutSeq_file E Chain Cmd w hp ho]
  obtain ⟨hf, hs, hop⟩ := finish_files (exportRun E Chain).1
    (((w.opened Cmd.SeqFile).write (.file Cmd.SeqFile) (exportedText E Chain)).logged
      (exportedLog E Chain)) (.file Cmd.SeqFile)
  rw [hf, hs, hop]
  refine ⟨?_, ?_, ?_, ?_⟩
  · simp [World.logged, World.write, World.opened]
  · intro q hq
    simp [World.logged, World.write, World.opened, hq]
  · simp [World.logged, World.write, World.opened]
  · simp [World.logged, World.write, World.opened]

theorem OutSeq_fail (E : Env) (Chain : List CHAIN) (NChain : Int) (Cmd : COMMAND)
    (w : World) (hp : Cmd.SeqFile ≠ []) (ho : w.openable Cmd.SeqFile = false) :
    OutSeq E Chain NChain Cmd w
      = (.error (.died ("Error writing sequence file ".toList ++ Cmd.SeqFile ++ ['\n'])),
          w.logged [.fopen Cmd.SeqFile ['a'] false]) := by
  simp only [OutSeq, bind_run, openSeq_fail E Cmd w hp ho]

/-- C7: for a non-empty destination path that can be opened, the file holds
after `OutSeq` its earlier content (none when the file was absent) followed by
the exported text; after a second run on the same chains and path it holds
the earlier content followed by two copies of the exported text. -/
theorem export_appends_to_file (E : Env) (Chain : List CHAIN) (Cmd : COMMAND) (w : World)
    (hp : Cmd.SeqFile ≠ []) (ho : w.openable Cmd.SeqFile = true) :
    (OutSeq E Chain Chain.length Cmd w).2.files Cmd.SeqFile
        = some ((w.files Cmd.SeqFile).getD [] ++ exportedText E Chain)
    ∧ (OutSeq E Chain Chain.length Cmd (OutSeq E Chain Chain.length Cmd w).2).2.files
          Cmd.SeqFile
        = some ((w.files Cmd.SeqFile).getD [] ++ exportedText E Chain
            ++ exportedText E Chain) := by
  obtain ⟨h1, _, _, h4⟩ := OutSeq_file_world E Chain Cmd w hp ho
  have ho2 : (OutSeq E Chain Chain.length Cmd w).2.openable Cmd.SeqFile = true := by
    rw [h4, ho]
  obtain ⟨k1, _, _, _⟩ :=
    OutSeq_file_world E Chain Cmd (OutSeq E Chain Chain.length Cmd w).2 hp ho2
  refine ⟨h1, ?_⟩
  rw [k1, h1]
  simp

theorem export_appends_to_file_witness :
    (⟨['o', 'u', 't']⟩ : COMMAND).SeqFile ≠ []
    ∧ sampleWorld.openable (⟨['o', 'u', 't']⟩ : COMMAND).SeqFile = true
    ∧ ((OutSeq sampleEnv [sampleChain] [sampleChain].length ⟨['o', 'u', 't']⟩ sampleWorld).2.files
          (⟨['o', 'u', 't']⟩ : COMMAND).SeqFile
        = some ((sampleWorld.files (⟨['o', 'u', 't']⟩ : COMMAND).SeqFile).getD []
            ++ exportedText sampleEnv [sampleChain])
      ∧ (OutSeq sampleEnv [sampleChain] [sampleChain].length ⟨['o', 'u', 't']⟩
            (OutSeq sampleEnv [sampleChain] [sampleChain].length ⟨['o', 'u', 't']⟩
              sampleWorld).2).2.files (⟨['o', 'u', 't']⟩ : COMMAND).SeqFile
          = some ((sampleWorld.files (⟨['o', 'u', 't']⟩ : COMMAND).SeqFile).getD []
              ++ exportedText sampleEnv [sampleChain] ++ exportedText sampleEnv [sampleChain])) :=
  ⟨by decide, by decide,
    export_appends_to_file sampleEnv [sampleChain] ⟨['o', 'u', 't']⟩ sampleWorld (by decide)
      (by decide)⟩

/-- C8: for a non-empty destination path whose open fails, `OutSeq` stops in
`die` with the message `Error writing sequence file`, the path and a line
break, which contains the path; the chain loop is not reached: standard
output and every file are left as they were, whatever the chains. -/
theorem open_failure_aborts (E : Env) (Chain : List CHAIN) (NChain : Int) (Cmd : COMMAND)
    (w : World) (hp : Cmd.SeqFile ≠ []) (ho : w.openable Cmd.SeqFile = false) :
    OutSeq E Chain NChain Cmd w
        = (.error (.died ("Error writing sequence file ".toList ++ Cmd.SeqFile ++ ['\n'])),
            w.logged [.fopen Cmd.SeqFile ['a'] false])
    ∧ Cmd.SeqFile <:+: "Error writing sequence file ".toList ++ Cmd.SeqFile ++ ['\n']
    ∧ (OutSeq E Chain NChain Cmd w).2.stdout = w.stdout
    ∧ (OutSeq E Chain NChain Cmd w).2.files = w.files := by
  have hrun := OutSeq_fail E Chain NChain Cmd w hp ho
  refine ⟨hrun, ?_, ?_, ?_⟩
  · exact ⟨"Error writing sequence file ".toList, ['\n'], rfl⟩
  · rw [hrun]
    rfl
  · rw [hrun]
    rfl

theorem open_failure_aborts_witness :
    (⟨['n', 'o']⟩ : COMMAND).SeqFile ≠ []
    ∧ sampleWorld.openable (⟨['n', 'o']⟩ : COMMAND).SeqFile = false
    ∧ (OutSeq sampleEnv [sampleChain] 1 ⟨['n', 'o']⟩ sampleWorld
          = (.error (.died ("Error writing sequence file ".toList
                ++ (⟨['n', 'o']⟩ : COMMAND).SeqFile ++ ['\n'])),
              sampleWorld.logged [.fopen (⟨['n', 'o']⟩ : COMMAND).SeqFile ['a'] false])
      ∧ (⟨['n', 'o']⟩ : COMMAND).SeqFile
          <:+: "Error writing sequence file ".toList ++ (⟨['n', 'o']⟩ : COMMAND).SeqFile ++ ['\n']
      ∧ (OutSeq sampleEnv [sampleChain] 1 ⟨['n', 'o']⟩ sampleWorld).2.stdout = sampleWorld.stdout
      ∧ (OutSeq sampleEnv [sampleChain] 1 ⟨['n', 'o']⟩ sampleWorld).2.files
          = sampleWorld.files) :=
  ⟨by decide, by decide,
    open_failure_aborts sampleEnv [sampleChain] 1 ⟨['n', 'o']⟩ sampleWorld (by decide)
      (by decide)⟩


theorem OutSeq_stdout (E : Env) (Chain : List CHAIN) (Cmd : COMMAND) (w : World)
    (hp : Cmd.SeqFile = []) :
    OutSeq E Chain Chain.length Cmd w
      = finish (exportRun E Chain).1
          ((w.write .stdout (exportedText E Chain)).logged (exportedLog E Chain)) .stdout := by
  rw [OutSeq_run, openSeq_stdout E Cmd hp w]

theorem finish_log (r : Except Halt Unit) (w : World) (Seq : FILE) (e : Event)
    (he : e ∈ (finish r w Seq).2.log) : e ∈ w.log ∨ e = .fclose Seq := by
  cases r with
  | error h => exact Or.inl he
  | ok u =>
    simp only [finish, World.logged, List.mem_append, List.mem_singleton] at he
    exact he

/-- C9: `OutSeq` takes standard output as its stream exactly when the
destination path is empty.  With the empty path the exported text is appended
to standard output, no file changes and no open is made.  With a non-empty
path nothing is written to standard output: when the open succeeds, it is an
open of that path in mode `a`, the exported text is appended to the file at
that path and no other file changes; when it fails, no file changes. -/
theorem destination_selection (E : Env) (Chain : List CHAIN) (Cmd : COMMAND) (w : World) :
    ((openSeq E Cmd w).1 = .ok .stdout ↔ Cmd.SeqFile = [])
    ∧ (if Cmd.SeqFile = [] then
        (OutSeq E Chain Chain.length Cmd w).2.stdout = w.stdout ++ exportedText E Chain
        ∧ (OutSeq E Chain Chain.length Cmd w).2.files = w.files
        ∧ (∀ p m ok, Event.fopen p m ok ∈ (OutSeq E Chain Chain.length Cmd w).2.log →
            Event.fopen p m ok ∈ w.log)
      else if w.openable Cmd.SeqFile = true then
        (OutSeq E Chain Chain.length Cmd w).2.stdout = w.stdout
        ∧ (OutSeq E Chain Chain.length Cmd w).2.files Cmd.SeqFile
            = some ((w.files Cmd.SeqFile).getD [] ++ exportedText E Chain)
        ∧ (∀ q, q ≠ Cmd.SeqFile → (OutSeq E Chain Chain.length Cmd w).2.files q = w.files q)
        ∧ Event.fopen Cmd.SeqFile ['a'] true ∈ (OutSeq E Chain Chain.length Cmd w).2.log
      else
        (OutSeq E Chain Chain.length Cmd w).2.stdout = w.stdout
        ∧ (OutSeq E Chain Chain.length Cmd w).2.files = w.files) := by
  constructor
  · by_cases hp : Cmd.SeqFile = []
    · simp [openSeq_stdout E Cmd hp w, hp]
    · cases ho : w.openable Cmd.SeqFile with
      | true => simp [openSeq_file E Cmd w hp ho, hp]
      | false => simp [openSeq_fail E Cmd w hp ho, hp]
  · by_cases hp : Cmd.SeqFile = []
    · rw [if_pos hp, OutSeq_stdout E Chain Cmd w hp]
      obtain ⟨hf, hs, _⟩ := finish_files (exportRun E Chain).1
        ((w.write .stdout (exportedText E Chain)).logged (exportedLog E Chain)) .stdout
      refine ⟨?_, ?_, ?_⟩
      · rw [hs]
        rfl
      · rw [hf]
        rfl
      · intro p m ok he
        rcases finish_log _ _ _ _ he with h1 | h1
        · simp only [World.logged, World.write, List.mem_append] at h1
          rcases h1 with h2 | h2
          · exact h2
          · obtain ⟨i, hi⟩ := (chainLoop_run E Chain).1 _ h2
            exact Event.noConfusion hi
        · exact Event.noConfusion h1
    · rw [if_neg hp]
      cases ho : w.openable Cmd.SeqFile with
      | true =>
        rw [if_pos rfl]
        obtain ⟨h1, h2, h3, _⟩ := OutSeq_file_world E Chain Cmd w hp ho
        refine ⟨h3, h1, h2, ?_⟩
        rw [OutSeq_file E Chain Cmd w hp ho]
        cases (exportRun E Chain).1 <;>
          simp [finish, World.logged, World.write, World.opened]
      | false =>
        rw [if_neg (by simp)]
        rw [OutSeq_fail E Chain Chain.length Cmd w hp ho]
        exact ⟨rfl, rfl⟩


/-! ## The separators of the header line -/

theorem headerText_eq (E : Env) (c : CHAIN) :
    headerText E c
      = ['>'] ++ c.File ++ [' '] ++ [SpaceToDash c.Id] ++ [' ', ' '] ++ decimal c.NRes
          ++ [' '] ++ E.fmt_7_3f c.Resolution ++ ['\n'] := by
  rw [headerText, format_header]
  simp

theorem wideChain_stdout :
    (OutSeq wideEnv [wideChain] 1 ⟨[]⟩ World.blank).2.stdout
      = ">1abc A  7 123.457\nAAAAAAA\n".toList := by
  have hinv : ∀ c ∈ [wideChain], c.NRes ≤ (c.Rsd.length : Int) := by
    intro c hc
    rw [List.mem_singleton.mp hc]
    decide
  obtain ⟨hr, ht, hl⟩ := exportRun_text wideEnv [wideChain] hinv
  have hrun := OutSeq_stdout wideEnv [wideChain] ⟨[]⟩ World.blank rfl
  have hlen : (([wideChain].length : Nat) : Int) = 1 := by decide
  rw [hlen] at hrun
  rw [hrun, (finish_files _ _ _).2.1, ht]
  have hv : wideChain.Valid = true := rfl
  have htext : [wideChain].flatMap (chainText wideEnv)
      = ">1abc A  7 123.457\nAAAAAAA\n".toList := by
    rw [show [wideChain].flatMap (chainText wideEnv) = chainText wideEnv wideChain by simp,
      chainText, if_pos hv, headerText_eq]
    decide
  rw [htext]
  rfl

/-- C10, counterexample: for a valid chain with `NRes = 7` whose resolution
is rendered `123.457`, `OutSeq` writes the header `>1abc A  7 123.457`; the
count followed by two spaces and the resolution field occurs nowhere in the
text written. -/
theorem header_two_spaces_counterexample :
    (OutSeq wideEnv [wideChain] 1 ⟨[]⟩ World.blank).2.stdout
        = ">1abc A  7 123.457\nAAAAAAA\n".toList
    ∧ ¬ (decimal wideChain.NRes ++ [' ', ' '] ++ wideEnv.fmt_7_3f wideChain.Resolution
          <:+: (OutSeq wideEnv [wideChain] 1 ⟨[]⟩ World.blank).2.stdout) := by
  refine ⟨wideChain_stdout, ?_⟩
  rw [wideChain_stdout]
  decide

/-- C10, amended: the header written for a valid chain has its fields
separated by literal spaces, one between file and identifier, two between
identifier and residue count, and exactly one between the residue count and
the resolution field. -/
theorem header_separators (E : Env) (c : CHAIN) (hv : c.Valid = true) (Seq : FILE)
    (w : World) :
    chainStep E Seq c w = chainBody E Seq c (w.write Seq (headerText E c))
    ∧ headerText E c
        = (['>'] ++ c.File) ++ [' '] ++ [SpaceToDash c.Id] ++ [' ', ' ']
            ++ decimal c.NRes ++ [' '] ++ (E.fmt_7_3f c.Resolution ++ ['\n']) := by
  constructor
  · simp only [chainStep, hv, Bool.not_true, Bool.false_eq_true, if_false, bind_run,
      fprintf_run, headerText]
  · rw [headerText_eq]
    simp

theorem header_separators_witness :
    wideChain.Valid = true
    ∧ (chainStep wideEnv .stdout wideChain World.blank
          = chainBody wideEnv .stdout wideChain
              (World.blank.write .stdout (headerText wideEnv wideChain))
      ∧ headerText wideEnv wideChain
          = (['>'] ++ wideChain.File) ++ [' '] ++ [SpaceToDash wideChain.Id] ++ [' ', ' ']
              ++ decimal wideChain.NRes ++ [' ']
              ++ (wideEnv.fmt_7_3f wideChain.Resolution ++ ['\n'])) :=
  ⟨rfl, header_separators wideEnv wideChain rfl .stdout World.blank⟩

/-! ## The end of the run -/

theorem OutSeq_never_returns (E : Env) (Chain : List CHAIN) (NChain : Int) (Cmd : COMMAND)
    (w : World) (v : Int) : (OutSeq E Chain NChain Cmd w).1 ≠ .ok v := by
  simp only [OutSeq, bind_run]
  rcases openSeq E Cmd w with ⟨r, w1⟩
  cases r with
  | error e => simp
  | ok Seq =>
    simp only [fclose, exit]
    split <;> simp

theorem OutSeq_success (E : Env) (Chain : List CHAIN) (Cmd : COMMAND) (w : World)
    (hopen : Cmd.SeqFile = [] ∨ w.openable Cmd.SeqFile = true)
    (hinv : ∀ c ∈ Chain, c.NRes ≤ (c.Rsd.length : Int)) :
    OutSeq E Chain Chain.length Cmd w
      = (.error (.exited 0),
          (((if Cmd.SeqFile = [] then w else w.opened Cmd.SeqFile).write
              (if Cmd.SeqFile = [] then FILE.stdout else FILE.file Cmd.SeqFile)
              (Chain.flatMap (chainText E))).logged (Chain.flatMap chainReads)).logged
            [.fclose (if Cmd.SeqFile = [] then FILE.stdout else FILE.file Cmd.SeqFile)]) := by
  obtain ⟨hr, ht, hl⟩ := exportRun_text E Chain hinv
  by_cases hp : Cmd.SeqFile = []
  · rw [OutSeq_stdout E Chain Cmd w hp, hr, ht, hl]
    simp [finish, hp]
  · have ho : w.openable Cmd.SeqFile = true := by
      rcases hopen with h | h
      · exact absurd h hp
      · exact h
    rw [OutSeq_file E Chain Cmd w hp ho, hr, ht, hl]
    simp [finish, hp]

/-- C12: `OutSeq` never returns a value to its caller, whatever its input;
when the destination is standard output or a path that opens and no chain
has more residues counted than stored, it halts in `exit` with status 0, in
the world where the text of all valid chains has been written to the
destination and the stream closed. -/
theorem exit_after_export (E : Env) (Chain : List CHAIN) (Cmd : COMMAND) (w : World)
    (hopen : Cmd.SeqFile = [] ∨ w.openable Cmd.SeqFile = true)
    (hinv : ∀ c ∈ Chain, c.NRes ≤ (c.Rsd.length : Int)) :
    (OutSeq E Chain Chain.length Cmd w).1 = .error (.exited 0)
    ∧ (if Cmd.SeqFile = [] then
        (OutSeq E Chain Chain.length Cmd w).2.stdout
          = w.stdout ++ (Chain.filter fun c => c.Valid).flatMap
              (fun c => headerText E c ++ bodyText E c c.NRes.toNat)
      else
        (OutSeq E Chain Chain.length Cmd w).2.files Cmd.SeqFile
          = some ((w.files Cmd.SeqFile).getD [] ++ (Chain.filter fun c => c.Valid).flatMap
              (fun c => headerText E c ++ bodyText E c c.NRes.toNat)))
    ∧ (∀ (xs : List CHAIN) (n : Int) (Cmd1 : COMMAND) (w1 : World) (v : Int),
        (OutSeq E xs n Cmd1 w1).1 ≠ .ok v) := by
  have hrun := OutSeq_success E Chain Cmd w hopen hinv
  have htext : Chain.flatMap (chainText E)
      = (Chain.filter fun c => c.Valid).flatMap
          (fun c => headerText E c ++ bodyText E c c.NRes.toNat) := by
    clear hrun hinv
    induction Chain with
    | nil => rfl
    | cons c cs ih =>
      cases hv : c.Valid <;> simp [List.filter_cons, chainText, hv, ih]
  refine ⟨by rw [hrun], ?_, fun xs n Cmd1 w1 v => OutSeq_never_returns E xs n Cmd1 w1 v⟩
  by_cases hp : Cmd.SeqFile = []
  · rw [if_pos hp, hrun, ← htext]
    simp [hp, World.logged, World.write]
  · rw [if_neg hp, hrun, ← htext]
    simp [hp, World.logged, World.write, World.opened]

theorem exit_after_export_witness :
    ((⟨[]⟩ : COMMAND).SeqFile = [] ∨ World.blank.openable (⟨[]⟩ : COMMAND).SeqFile = true)
    ∧ (∀ c ∈ [sampleChain, skippedChain], c.NRes ≤ (c.Rsd.length : Int))
    ∧ ((OutSeq sampleEnv [sampleChain, skippedChain] [sampleChain, skippedChain].length ⟨[]⟩
          World.blank).1 = .error (.exited 0)
      ∧ (if (⟨[]⟩ : COMMAND).SeqFile = [] then
          (OutSeq sampleEnv [sampleChain, skippedChain] [sampleChain, skippedChain].length ⟨[]⟩
              World.blank).2.stdout
            = World.blank.stdout ++ ([sampleChain, skippedChain].filter fun c => c.Valid).flatMap
                (fun c => headerText sampleEnv c ++ bodyText sampleEnv c c.NRes.toNat)
        else
          (OutSeq sampleEnv [sampleChain, skippedChain] [sampleChain, skippedChain].length ⟨[]⟩
              World.blank).2.files (⟨[]⟩ : COMMAND).SeqFile
            = some ((World.blank.files (⟨[]⟩ : COMMAND).SeqFile).getD []
                ++ ([sampleChain, skippedChain].filter fun c => c.Valid).flatMap
                  (fun c => headerText sampleEnv c ++ bodyText sampleEnv c c.NRes.toNat)))
      ∧ (∀ (xs : List CHAIN) (n : Int) (Cmd1 : COMMAND) (w1 : World) (v : Int),
          (OutSeq sampleEnv xs n Cmd1 w1).1 ≠ .ok v)) :=
  ⟨Or.inl rfl, by decide,
    exit_after_export sampleEnv [sampleChain, skippedChain] ⟨[]⟩ World.blank (Or.inl rfl)
      (by decide)⟩

/-! ## Closing the stream -/

theorem OutSeq_success_log (E : Env) (Chain : List CHAIN) (Cmd : COMMAND) (w : World)
    (hopen : Cmd.SeqFile = [] ∨ w.openable Cmd.SeqFile = true)
    (hinv : ∀ c ∈ Chain, c.NRes ≤ (c.Rsd.length : Int)) :
    (OutSeq E Chain Chain.length Cmd w).2.log
      = (if Cmd.SeqFile = [] then w.log else w.log ++ [.fopen Cmd.SeqFile ['a'] true])
          ++ Chain.flatMap chainReads
          ++ [.fclose (if Cmd.SeqFile = [] then FILE.stdout else FILE.file Cmd.SeqFile)] := by
  rw [OutSeq_success E Chain Cmd w hopen hinv]
  by_cases hp : Cmd.SeqFile = []
  · simp [hp, World.logged, World.write]
  · simp [hp, World.logged, World.write, World.opened]

/-- C13, counterexample: run with the empty destination path on the chain of
the worked example, `OutSeq` ends its log of calls with `fclose` of standard
output: the stream is closed explicitly although no file was opened. -/
theorem stdout_not_closed_counterexample :
    (⟨[]⟩ : COMMAND).SeqFile = []
    ∧ (OutSeq sampleEnv [sampleChain] 1 ⟨[]⟩ World.blank).2.log
        = [.read 0, .read 1, .read 2, .fclose .stdout] := by
  have hinv : ∀ c ∈ [sampleChain], c.NRes ≤ (c.Rsd.length : Int) := by decide
  have h := OutSeq_success_log sampleEnv [sampleChain] ⟨[]⟩ World.blank (Or.inl rfl) hinv
  have hlen : (([sampleChain].length : Nat) : Int) = 1 := by decide
  rw [hlen] at h
  refine ⟨rfl, ?_⟩
  rw [h]
  decide

/-- C13, amended: after the chains are processed `OutSeq` closes the
destination stream with `fclose` whichever stream was selected, standard
output when the destination path is empty and the opened file otherwise; the
close is the last call before the exit. -/
theorem stream_always_closed (E : Env) (Chain : List CHAIN) (Cmd : COMMAND) (w : World)
    (hopen : Cmd.SeqFile = [] ∨ w.openable Cmd.SeqFile = true)
    (hinv : ∀ c ∈ Chain, c.NRes ≤ (c.Rsd.length : Int)) :
    (OutSeq E Chain Chain.length Cmd w).1 = .error (.exited 0)
    ∧ (OutSeq E Chain Chain.length Cmd w).2.log.getLast?
        = some (.fclose (if Cmd.SeqFile = [] then FILE.stdout else FILE.file Cmd.SeqFile))
    ∧ (OutSeq E Chain Chain.length Cmd w).2.log
        = (if Cmd.SeqFile = [] then w.log else w.log ++ [.fopen Cmd.SeqFile ['a'] true])
            ++ (Chain.filter fun c => c.Valid).flatMap
                (fun c => (List.range c.NRes.toNat).map Event.read)
            ++ [.fclose (if Cmd.SeqFile = [] then FILE.stdout else FILE.file Cmd.SeqFile)] := by
  have hlog := OutSeq_success_log E Chain Cmd w hopen hinv
  have hreads : Chain.flatMap chainReads
      = (Chain.filter fun c => c.Valid).flatMap
          (fun c => (List.range c.NRes.toNat).map Event.read) := by
    clear hlog hinv
    induction Chain with
    | nil => rfl
    | cons c cs ih =>
      cases hv : c.Valid <;> simp [List.filter_cons, chainReads, readsFrom, hv, ih]
  refine ⟨by rw [OutSeq_success E Chain Cmd w hopen hinv], ?_, ?_⟩
  · rw [hlog]
    simp
  · rw [hlog, hreads]

theorem stream_always_closed_witness :
    ((⟨[]⟩ : COMMAND).SeqFile = [] ∨ World.blank.openable (⟨[]⟩ : COMMAND).SeqFile = true)
    ∧ (∀ c ∈ [sampleChain], c.NRes ≤ (c.Rsd.length : Int))
    ∧ ((OutSeq sampleEnv [sampleChain] [sampleChain].length ⟨[]⟩ World.blank).1
          = .error (.exited 0)
      ∧ (OutSeq sampleEnv [sampleChain] [sampleChain].length ⟨[]⟩ World.blank).2.log.getLast?
          = some (.fclose (if (⟨[]⟩ : COMMAND).SeqFile = [] then FILE.stdout
              else FILE.file (⟨[]⟩ : COMMAND).SeqFile))
      ∧ (OutSeq sampleEnv [sampleChain] [sampleChain].length ⟨[]⟩ World.blank).2.log
          = (if (⟨[]⟩ : COMMAND).SeqFile = [] then World.blank.log
              else World.blank.log ++ [.fopen (⟨[]⟩ : COMMAND).SeqFile ['a'] true])
              ++ ([sampleChain].filter fun c => c.Valid).flatMap
                  (fun c => (List.range c.NRes.toNat).map Event.read)
              ++ [.fclose (if (⟨[]⟩ : COMMAND).SeqFile = [] then FILE.stdout
                  else FILE.file (⟨[]⟩ : COMMAND).SeqFile)]) :=
  ⟨Or.inl rfl, by decide,
    stream_always_closed sampleEnv [sampleChain] ⟨[]⟩ World.blank (Or.inl rfl) (by decide)⟩

/-! ## The text of a list of chains -/

theorem runChains_append (E : Env) (Seq : FILE) (ys : List CHAIN) :
    ∀ (xs : List CHAIN) (w : World),
      runChains E Seq (xs ++ ys) w
        = match runChains E Seq xs w with
          | (.ok _, w1) => runChains E Seq ys w1
          | (.error h, w1) => (.error h, w1) := by
  intro xs
  induction xs with
  | nil => intro w; simp [runChains]
  | cons x xs ih =>
    intro w
    simp only [List.cons_append, runChains, bind_run]
    rcases chainStep E Seq x w with ⟨r, w1⟩
    cases r with
    | ok u => exact ih w1
    | error e => rfl

theorem runChains_run (E : Env) (cs : List CHAIN) (Seq : FILE) (w : World) :
    runChains E Seq cs w
      = ((exportRun E cs).1, (w.write Seq (exportedText E cs)).logged (exportedLog E cs)) := by
  have h1 := chainLoop_eq_runChains E Seq cs cs.length 0 rfl w
  have h2 := (chainLoop_run E cs).2 Seq w
  simp only [List.drop_zero, Nat.cast_zero] at h1 h2
  rw [← h1, h2]

theorem exportRun_eq_runChains (E : Env) (cs : List CHAIN) :
    exportRun E cs = runChains E .stdout cs World.blank := by
  have h1 := chainLoop_eq_runChains E .stdout cs cs.length 0 rfl World.blank
  simp only [List.drop_zero, Nat.cast_zero] at h1
  rw [← h1]
  simp [exportRun]

theorem exportedText_append (E : Env) (xs ys : List CHAIN)
    (hinv : ∀ c ∈ xs, c.NRes ≤ (c.Rsd.length : Int)) :
    exportedText E (xs ++ ys) = exportedText E xs ++ exportedText E ys := by
  obtain ⟨hr, _, _⟩ := exportRun_text E xs hinv
  have hx := runChains_run E xs .stdout World.blank
  rw [hr] at hx
  have happ := runChains_append E .stdout ys xs World.blank
  rw [hx] at happ
  simp only [runChains_run E ys] at happ
  rw [exportedText, exportRun_eq_runChains, happ]
  simp [World.write, World.logged, World.blank]

/-- C14: the wrap counter starts anew in each chain, so the text of a chain
does not depend on the chains before it: when no chain of `xs` has more
residues counted than stored, the text exported for `xs ++ ys` is the text
for `xs` followed by the text for `ys`, the text of a list is the
concatenation of the texts of its chains taken one by one, and the text for
the empty list is empty. -/
theorem export_text_concatenates (E : Env) (xs ys : List CHAIN)
    (hinv : ∀ c ∈ xs, c.NRes ≤ (c.Rsd.length : Int)) :
    exportedText E (xs ++ ys) = exportedText E xs ++ exportedText E ys
    ∧ exportedText E xs = xs.flatMap (fun c => exportedText E [c])
    ∧ exportedText E [] = [] := by
  refine ⟨exportedText_append E xs ys hinv, ?_, ?_⟩
  · rw [(exportRun_text E xs hinv).2.1]
    apply List.flatMap_congr
    intro c hc
    have h1 : ∀ x ∈ [c], x.NRes ≤ (x.Rsd.length : Int) := by
      intro x hx
      rw [List.mem_singleton.mp hx]
      exact hinv c hc
    rw [(exportRun_text E [c] h1).2.1]
    simp
  · rw [exportedText, exportRun_eq_runChains]
    rfl

theorem export_text_concatenates_witness :
    (∀ c ∈ [fullLineChain, skippedChain], c.NRes ≤ (c.Rsd.length : Int))
    ∧ (exportedText sampleEnv ([fullLineChain, skippedChain] ++ [sampleChain])
          = exportedText sampleEnv [fullLineChain, skippedChain]
            ++ exportedText sampleEnv [sampleChain]
      ∧ exportedText sampleEnv [fullLineChain, skippedChain]
          = [fullLineChain, skippedChain].flatMap (fun c => exportedText sampleEnv [c])
      ∧ exportedText sampleEnv [] = []) :=
  ⟨by decide,
    export_text_concatenates sampleEnv [fullLineChain, skippedChain] [sampleChain] (by decide)⟩

/-! ## Residue reads -/

theorem chainReads_of_length (cs : List CHAIN) (hinv : ∀ c ∈ cs, c.NRes = (c.Rsd.length : Int)) :
    cs.flatMap chainReads
      = cs.flatMap fun c => if c.Valid then (List.range c.Rsd.length).map Event.read else [] := by
  apply List.flatMap_congr
  intro c hc
  have hn : c.NRes.toNat = c.Rsd.length := by
    have := hinv c hc
    omega
  cases hv : c.Valid <;> simp [chainReads, readsFrom, hv, hn]

/-- C15: when every chain has `NRes` equal to the length of its residue
list, the chain loop never reads outside a residue list (it ends without
undefined behaviour, and so does `OutSeq`), and the reads it makes are, chain
after chain, the indices `0, 1, ..., length - 1` once each in increasing order
for a valid chain and none for an invalid chain. -/
theorem residue_reads_in_bounds (E : Env) (Chain : List CHAIN)
    (hinv : ∀ c ∈ Chain, c.NRes = (c.Rsd.length : Int)) :
    (∀ (Seq : FILE) (w : World),
      chainLoop E Seq Chain Chain.length 0 w
        = (.ok (), (w.write Seq (exportedText E Chain)).logged
            (Chain.flatMap fun c =>
              if c.Valid then (List.range c.Rsd.length).map Event.read else [])))
    ∧ (∀ (Cmd : COMMAND) (w : World),
        (OutSeq E Chain Chain.length Cmd w).1 ≠ .error .undefinedBehaviour)
    ∧ (∀ (c : CHAIN) (Seq : FILE) (w : World), c ∈ Chain →
        chainStep E Seq c w
          = (.ok (), (w.write Seq (chainText E c)).logged
              (if c.Valid then (List.range c.Rsd.length).map Event.read else []))) := by
  have hle : ∀ c ∈ Chain, c.NRes ≤ (c.Rsd.length : Int) := by
    intro c hc
    have := hinv c hc
    omega
  obtain ⟨hr, _, hl⟩ := exportRun_text E Chain hle
  refine ⟨?_, ?_, ?_⟩
  · intro Seq w
    have h := (chainLoop_run E Chain).2 Seq w
    rw [hr, hl, chainReads_of_length Chain hinv] at h
    exact h
  · intro Cmd w
    by_cases hp : Cmd.SeqFile = []
    · rw [OutSeq_success E Chain Cmd w (Or.inl hp) hle]
      simp
    · cases ho : w.openable Cmd.SeqFile with
      | true =>
        rw [OutSeq_success E Chain Cmd w (Or.inr ho) hle]
        simp
      | false =>
        rw [OutSeq_fail E Chain Chain.length Cmd w hp ho]
        simp
  · intro c Seq w hc
    have h1 : ∀ x ∈ [c], x.NRes = (x.Rsd.length : Int) := by
      intro x hx
      rw [List.mem_singleton.mp hx]
      exact hinv c hc
    have h2 := chainReads_of_length [c] h1
    simp only [List.flatMap_cons, List.flatMap_nil, List.append_nil] at h2
    rw [chainStep_text E Seq c (hle c hc) w, h2]

theorem residue_reads_in_bounds_witness :
    (∀ c ∈ [sampleChain, fullLineChain], c.NRes = (c.Rsd.length : Int))
    ∧ ((∀ (Seq : FILE) (w : World),
        chainLoop sampleEnv Seq [sampleChain, fullLineChain]
            [sampleChain, fullLineChain].length 0 w
          = (.ok (), (w.write Seq (exportedText sampleEnv [sampleChain, fullLineChain])).logged
              ([sampleChain, fullLineChain].flatMap fun c =>
                if c.Valid then (List.range c.Rsd.length).map Event.read else [])))
      ∧ (∀ (Cmd : COMMAND) (w : World),
          (OutSeq sampleEnv [sampleChain, fullLineChain]
            [sampleChain, fullLineChain].length Cmd w).1 ≠ .error .undefinedBehaviour)
      ∧ (∀ (c : CHAIN) (Seq : FILE) (w : World), c ∈ [sampleChain, fullLineChain] →
          chainStep sampleEnv Seq c w
            = (.ok (), (w.write Seq (chainText sampleEnv c)).logged
                (if c.Valid then (List.range c.Rsd.length).map Event.read else [])))) :=
  ⟨by decide, residue_reads_in_bounds sampleEnv [sampleChain, fullLineChain] (by decide)⟩

/-! ## The residue count of the header and the body -/

/-- C16: for a valid chain whose `NRes` (any integer, zero and negative
included) does not exceed the number of residues stored, the header shows
`NRes` itself and the body holds the codes of the first `max(NRes, 0)`
residues, wrapped, and a final line break; the count shown equals the number
of codes in the body exactly when `NRes >= 0`, and for `NRes <= 0` the body
is a single line break. -/
theorem header_count_and_body (E : Env) (c : CHAIN) (hv : c.Valid = true)
    (hle : c.NRes ≤ (c.Rsd.length : Int)) (Seq : FILE) (w : World) :
    chainStep E Seq c w
        = (.ok (), (w.write Seq
            ((['>'] ++ c.File ++ [' '] ++ [SpaceToDash c.Id] ++ [' ', ' '] ++ decimal c.NRes
                ++ [' '] ++ E.fmt_7_3f c.Resolution ++ ['\n'])
              ++ ((((codes E c).take c.NRes.toNat).enum.flatMap fun p =>
                    (if p.1 % 60 = 0 ∧ p.1 ≠ 0 then ['\n'] else []) ++ [p.2]) ++ ['\n']))).logged
            ((List.range c.NRes.toNat).map Event.read))
    ∧ ((((codes E c).take c.NRes.toNat).length : Nat) : Int) = max c.NRes 0
    ∧ (((((codes E c).take c.NRes.toNat).length : Nat) : Int) = c.NRes ↔ 0 ≤ c.NRes)
    ∧ (c.NRes ≤ 0 → bodyText E c c.NRes.toNat = ['\n'])
    ∧ ((∀ t, E.ThreeToOne t ≠ '\n') →
        ((((bodyText E c c.NRes.toNat).filter (fun x => x ≠ '\n')).length : Nat) : Int)
          = max c.NRes 0) := by
  have hlen : ((codes E c).take c.NRes.toNat).length = c.NRes.toNat := by
    rw [List.length_take, codes_length]
    omega
  have hbody : bodyText E c c.NRes.toNat
      = (((codes E c).take c.NRes.toNat).enum.flatMap fun p =>
          (if p.1 % 60 = 0 ∧ p.1 ≠ 0 then ['\n'] else []) ++ [p.2]) ++ ['\n'] := by
    rw [bodyText, loopText_eq_flatMap, List.enum]
  have hreads : readsFrom 0 c.NRes.toNat = (List.range c.NRes.toNat).map Event.read := by
    simp [readsFrom]
  refine ⟨?_, ?_, ?_, ?_, ?_⟩
  · rw [chainStep_run E Seq c hv hle w, headerText_eq, hbody, hreads]
  · rw [hlen]
    omega
  · rw [hlen]
    omega
  · intro hneg
    have h0 : c.NRes.toNat = 0 := by omega
    simp [bodyText, h0, loopText]
  · intro hT
    have hnb : ∀ x ∈ (codes E c).take c.NRes.toNat, x ≠ '\n' :=
      fun x hx => codes_no_break E c hT x (List.mem_of_mem_take hx)
    rw [bodyText, List.filter_append, loopText_filter _ 0 hnb, List.length_append, hlen]
    simp only [ne_eq, decide_not, List.filter_cons, List.filter_nil]
    simp only [decide_True, Bool.not_true, Bool.false_eq_true, if_false, List.length_nil,
      Nat.add_zero]
    omega

theorem header_count_and_body_witness :
    negativeChain.Valid = true
    ∧ negativeChain.NRes ≤ (negativeChain.Rsd.length : Int)
    ∧ (chainStep sampleEnv .stdout negativeChain World.blank
          = (.ok (), (World.blank.write .stdout
              ((['>'] ++ negativeChain.File ++ [' '] ++ [SpaceToDash negativeChain.Id]
                  ++ [' ', ' '] ++ decimal negativeChain.NRes
                  ++ [' '] ++ sampleEnv.fmt_7_3f negativeChain.Resolution ++ ['\n'])
                ++ ((((codes sampleEnv negativeChain).take negativeChain.NRes.toNat).enum.flatMap
                      fun p => (if p.1 % 60 = 0 ∧ p.1 ≠ 0 then ['\n'] else []) ++ [p.2])
                    ++ ['\n']))).logged
              ((List.range negativeChain.NRes.toNat).map Event.read))
      ∧ ((((codes sampleEnv negativeChain).take negativeChain.NRes.toNat).length : Nat) : Int)
          = max negativeChain.NRes 0
      ∧ (((((codes sampleEnv negativeChain).take negativeChain.NRes.toNat).length : Nat) : Int)
          = negativeChain.NRes ↔ 0 ≤ negativeChain.NRes)
      ∧ (negativeChain.NRes ≤ 0
          → bodyText sampleEnv negativeChain negativeChain.NRes.toNat = ['\n'])
      ∧ ((∀ t, sampleEnv.ThreeToOne t ≠ '\n') →
          ((((bodyText sampleEnv negativeChain negativeChain.NRes.toNat).filter
              (fun x => x ≠ '\n')).length : Nat) : Int) = max negativeChain.NRes 0)) :=
  ⟨rfl, by decide,
    header_count_and_body sampleEnv negativeChain rfl (by decide) .stdout World.blank⟩

/-! ## The resolution field -/

theorem thousandths_bounds (x : Rat) :
    2 * (thousandths x * x.den) ≤ 2 * (x.num.natAbs * 1000) + x.den
    ∧ 2 * (x.num.natAbs * 1000) ≤ 2 * (thousandths x * x.den) + x.den := by
  have hd : 0 < x.den := x.den_pos
  have hdiv := Nat.div_add_mod (x.num.natAbs * 1000) x.den
  have hmod := Nat.mod_lt (x.num.natAbs * 1000) hd
  have hsucc : (x.num.natAbs * 1000 / x.den + 1) * x.den
      = x.num.natAbs * 1000 / x.den * x.den + x.den := Nat.succ_mul _ _
  have hcomm : x.den * (x.num.natAbs * 1000 / x.den) = x.num.natAbs * 1000 / x.den * x.den :=
    Nat.mul_comm _ _
  simp only [thousandths]
  split_ifs <;> constructor <;> omega

theorem thousandths_near (x : Rat) : abs ((thousandths x : ℚ) / 1000 - abs x) ≤ 1 / 2000 := by
  obtain ⟨h1, h2⟩ := thousandths_bounds x
  have hd : (0 : ℚ) < x.den := by exact_mod_cast x.den_pos
  have habs : abs x = (x.num.natAbs : ℚ) / x.den := by
    conv_lhs => rw [← Rat.num_div_den x]
    rw [abs_div, Nat.abs_cast, Nat.cast_natAbs, Int.cast_abs]
  have h1q : (2 : ℚ) * (thousandths x * x.den) ≤ 2 * (x.num.natAbs * 1000) + x.den := by
    exact_mod_cast h1
  have h2q : (2 : ℚ) * (x.num.natAbs * 1000) ≤ 2 * (thousandths x * x.den) + x.den := by
    exact_mod_cast h2
  have hkey : (thousandths x : ℚ) / 1000 - (x.num.natAbs : ℚ) / x.den
      = ((thousandths x : ℚ) * x.den - x.num.natAbs * 1000) / (1000 * x.den) := by
    field_simp
    ring
  rw [habs, hkey, abs_le]
  constructor
  · rw [le_div_iff₀ (by positivity)]
    linarith
  · rw [div_le_iff₀ (by positivity)]
    linarith

theorem printf_7_3f_length (x : Rat) : 7 ≤ (printf_7_3f x).length := by
  simp only [printf_7_3f, List.length_append, List.length_replicate]
  omega

theorem printf_7_3f_shape (x : Rat) :
    printf_7_3f x
      = List.replicate
          (7 - ((if x < 0 then 1 else 0) + (Nat.toDigits 10 (thousandths x / 1000)).length + 4))
          ' '
        ++ ((if x < 0 then ['-'] else []) ++ Nat.toDigits 10 (thousandths x / 1000)
          ++ ['.', Nat.digitChar (thousandths x / 100 % 10),
            Nat.digitChar (thousandths x / 10 % 10), Nat.digitChar (thousandths x % 10)]) := by
  by_cases hx : x < 0
  · have hn : x.num < 0 := Rat.num_neg.mpr hx
    simp [printf_7_3f, fixed3, hx, hn]
    omega
  · have hn : ¬ x.num < 0 := fun h => hx (Rat.num_neg.mp h)
    simp [printf_7_3f, fixed3, hx, hn]

/-- C11: with `%7.3f` rendered as the C library renders a finite value, the
header of a valid chain shows the resolution as blanks, a minus sign for a
negative value, the digits of the whole part, a point and exactly three
digits, the number shown being the thousandth nearest to the resolution; the
blanks fill the field to 7 characters on the left and a longer number is not
cut.  Resolution 1.5 is shown as `  1.500` and 123.4567, also as the nearest
`float`, as `123.457`. -/
theorem resolution_field (E : Env) (hE : E.fmt_7_3f = printf_7_3f) (c : CHAIN)
    (hv : c.Valid = true) (Seq : FILE) (w : World) :
    chainStep E Seq c w
        = chainBody E Seq c
            (w.write Seq
              (['>'] ++ c.File ++ [' '] ++ [SpaceToDash c.Id] ++ [' ', ' '] ++ decimal c.NRes
                ++ [' '] ++ printf_7_3f c.Resolution ++ ['\n']))
    ∧ (∀ x : Rat, ∃ t : Nat,
        abs ((t : ℚ) / 1000 - abs x) ≤ 1 / 2000
        ∧ printf_7_3f x
            = List.replicate
                (7 - ((if x < 0 then 1 else 0) + (Nat.toDigits 10 (t / 1000)).length + 4)) ' '
              ++ ((if x < 0 then ['-'] else []) ++ Nat.toDigits 10 (t / 1000)
                ++ ['.', Nat.digitChar (t / 100 % 10), Nat.digitChar (t / 10 % 10),
                  Nat.digitChar (t % 10)])
        ∧ 7 ≤ (printf_7_3f x).length)
    ∧ printf_7_3f (3 / 2) = "  1.500".toList
    ∧ printf_7_3f (1234567 / 10000) = "123.457".toList
    ∧ printf_7_3f (16181717 / 131072) = "123.457".toList := by
  refine ⟨?_, ?_, ?_, ?_, ?_⟩
  · simp only [chainStep, hv, Bool.not_true, Bool.false_eq_true, if_false, bind_run,
      fprintf_run]
    rw [← headerText, headerText_eq, hE]
  · intro x
    exact ⟨thousandths x, thousandths_near x, printf_7_3f_shape x, printf_7_3f_length x⟩
  · with_unfolding_all decide
  · with_unfolding_all decide
  · with_unfolding_all decide

theorem resolution_field_witness :
    libcEnv.fmt_7_3f = printf_7_3f
    ∧ halfChain.Valid = true
    ∧ (chainStep libcEnv .stdout halfChain World.blank
          = chainBody libcEnv .stdout halfChain
              (World.blank.write .stdout
                (['>'] ++ halfChain.File ++ [' '] ++ [SpaceToDash halfChain.Id] ++ [' ', ' ']
                  ++ decimal halfChain.NRes ++ [' '] ++ printf_7_3f halfChain.Resolution
                  ++ ['\n']))
      ∧ (∀ x : Rat, ∃ t : Nat,
          abs ((t : ℚ) / 1000 - abs x) ≤ 1 / 2000
          ∧ printf_7_3f x
              = List.replicate
                  (7 - ((if x < 0 then 1 else 0) + (Nat.toDigits 10 (t / 1000)).length + 4)) ' '
                ++ ((if x < 0 then ['-'] else []) ++ Nat.toDigits 10 (t / 1000)
                  ++ ['.', Nat.digitChar (t / 100 % 10), Nat.digitChar (t / 10 % 10),
                    Nat.digitChar (t % 10)])
          ∧ 7 ≤ (printf_7_3f x).length)
      ∧ printf_7_3f (3 / 2) = "  1.500".toList
      ∧ printf_7_3f (1234567 / 10000) = "123.457".toList
      ∧ printf_7_3f (16181717 / 131072) = "123.457".toList) :=
  ⟨rfl, rfl, resolution_field libcEnv rfl halfChain rfl .stdout World.blank⟩

end Stride
